import Mathlib

/-!
Verification development for the oxphobia dependency-resolution engine.

The JavaScript source (src/cli.js, and the oxc variant shipped alongside it)
is shallowly embedded here:

* JavaScript values and syntax-tree nodes are modelled by the JSON-like
  inductive type JVal; the untyped field accesses of the walker become
  association-list lookups, and JavaScript truthiness becomes the function
  truthy.
* The dependency walker (findDependencies / evaluateEnvCondition /
  isProcessEnvNodeEnv) is translated line by line from src/cli.js; its
  recursion over child fields is justified by a sizeOf measure.
* Package resolution (parseBareSpecifier / resolveExports /
  resolvePackageUrl with its specifier-keyed cache), specifier
  classification (resolveUrl, in both the acorn and the oxc variant), and
  the fetch fallback loop (fetchFile) are embedded as pure functions over
  oracles that model the network and the parser.
* The concurrent orchestrator (enqueueFile / run) is modelled as a small
  step system: each in-flight task is a state machine whose atomic steps
  correspond to the synchronous segments between await suspension points
  of the JavaScript task body, and a schedule (a list of task indices)
  resolves the nondeterministic interleaving.
-/

/-! ## Association lists and string utilities

JavaScript objects are modelled as association lists with first-match
lookup (a real object parsed from source has distinct keys).  String
operations are implemented over the underlying character list so that
every definition reduces by kernel computation.  -/

def lookupA {α : Type} : List (String × α) → String → Option α
  | [], _ => none
  | (k', v) :: rest, k => if k' = k then some v else lookupA rest k

theorem lookupA_sizeOf {α : Type} [SizeOf α] {fs : List (String × α)} {k : String} {v : α}
    (h : lookupA fs k = some v) : sizeOf v < sizeOf fs := by
  induction fs with
  | nil => simp [lookupA] at h
  | cons p rest ih =>
    obtain ⟨k', v'⟩ := p
    simp only [lookupA] at h
    by_cases hk : k' = k
    · simp [hk] at h
      subst h
      simp only [List.cons.sizeOf_spec, Prod.mk.sizeOf_spec]
      omega
    · simp [hk] at h
      have := ih h
      simp only [List.cons.sizeOf_spec]
      omega

/-- Models JavaScript String.prototype.startsWith. -/
def strStartsWith (s pre : String) : Bool :=
  pre.data.isPrefixOf s.data

/-- Models JavaScript String.prototype.endsWith. -/
def strEndsWith (s suf : String) : Bool :=
  suf.data.isSuffixOf s.data

/-- Models String.prototype.slice(n) for nonnegative n (drop the first n characters). -/
def strDrop (s : String) (n : Nat) : String :=
  ⟨s.data.drop n⟩

/-- Splits a character list at every occurrence of the separator character,
matching JavaScript String.prototype.split with a one-character separator. -/
def splitChar (c : Char) : List Char → List (List Char)
  | [] => [[]]
  | x :: xs =>
    match splitChar c xs with
    | [] => [[]]
    | g :: gs => if x = c then [] :: g :: gs else (x :: g) :: gs

/-- JavaScript str.split(sep) for a one-character separator sep. -/
def strSplit (s : String) (c : Char) : List String :=
  (splitChar c s.data).map (fun g => ⟨g⟩)

/-- JavaScript Array.prototype.join(sep) for a one-character separator. -/
def strJoin (sep : String) : List String → String
  | [] => ""
  | [x] => x
  | x :: y :: rest => x ++ sep ++ strJoin sep (y :: rest)

/-! ## JavaScript values -/

/-- A JSON-like JavaScript value.  Syntax-tree nodes, package manifests and
export maps are all JVal objects.  The constructor null also stands for
undefined: the walker and the resolver treat both identically (both are
falsy, both fail every type/field test used by the source). -/
inductive JVal where
  | null : JVal
  | bool : Bool → JVal
  | num : Int → JVal
  | str : String → JVal
  | arr : List JVal → JVal
  | obj : List (String × JVal) → JVal

/-- JavaScript truthiness (NaN is not representable in this model). -/
def truthy : JVal → Bool
  | .null => false
  | .bool b => b
  | .num n => n ≠ 0
  | .str s => s ≠ ""
  | .arr _ => true
  | .obj _ => true

/-- Field access on an object field list; an absent field reads as
undefined (JVal.null). -/
def fieldOf (fs : List (String × JVal)) (k : String) : JVal :=
  (lookupA fs k).getD .null

/-- Property access v.k on an arbitrary value: undefined unless v is an
object with the field (property access on primitives yields undefined for
the property names used by the source). -/
def getOf (v : JVal) (k : String) : JVal :=
  match v with
  | .obj fs => fieldOf fs k
  | _ => .null

/-- node.type as a string; a missing or non-string type field compares
unequal to every node-type name the source tests, which the empty string
also does. -/
def typeOf (fs : List (String × JVal)) : String :=
  match lookupA fs "type" with
  | some (.str s) => s
  | _ => ""

/-- JavaScript a || b restricted to the values in play: the first operand
if truthy, otherwise the second. -/
def jsOr (a b : JVal) : JVal :=
  if truthy a then a else b

/-- JavaScript strict equality v === "s" against a string literal: true
exactly when v is that string. -/
def isStrVal (v : JVal) (s : String) : Bool :=
  match v with
  | .str t => t = s
  | _ => false

theorem fieldOf_sizeOf_le {fs : List (String × JVal)} {k : String} :
    sizeOf (fieldOf fs k) ≤ sizeOf fs := by
  unfold fieldOf
  cases h : lookupA fs k with
  | none =>
    simp only [Option.getD, JVal.null.sizeOf_spec]
    cases fs with
    | nil => simp
    | cons p rest => simp only [List.cons.sizeOf_spec]; omega
  | some v =>
    simp only [Option.getD]
    exact le_of_lt (lookupA_sizeOf h)

/-! ## The environment pruner (src/cli.js lines 29-69) -/

/-- Translation of isProcessEnvNodeEnv from src/cli.js: recognises a
MemberExpression whose property (by name or computed string value) is
NODE_ENV, whose object is a MemberExpression with property env, whose own
object has name process. -/
def isProcessEnvNodeEnv (node : JVal) : Bool :=
  match node with
  | .obj fs =>
    if typeOf fs = "MemberExpression" then
      let prop := fieldOf fs "property"
      let propName := if truthy prop then jsOr (getOf prop "name") (getOf prop "value") else prop
      if isStrVal propName "NODE_ENV" then
        match fieldOf fs "object" with
        | .obj obFs =>
          if typeOf obFs = "MemberExpression" then
            let oprop := fieldOf obFs "property"
            let objProp := if truthy oprop then jsOr (getOf oprop "name") (getOf oprop "value") else oprop
            if isStrVal objProp "env" then
              let root := fieldOf obFs "object"
              truthy root && isStrVal (getOf root "name") "process"
            else false
          else false
        | _ => false
      else false
    else false
  | _ => false

/-- The local getString of evaluateEnvCondition and the local extractString
of findDependencies in src/cli.js are the same test: a Literal node whose
value is a string.  (A genuine BinaryExpression always has both operands,
so the operand handed to getString is never undefined.) -/
def extractString (n : JVal) : Option String :=
  match n with
  | .obj fs =>
    if typeOf fs = "Literal" then
      match lookupA fs "value" with
      | some (.str s) => some s
      | _ => none
    else none
  | _ => none

/-- Translation of evaluateEnvCondition from src/cli.js.  Returns
some true / some false for a definitely-true / definitely-false
NODE_ENV comparison against a string literal, and none (the JavaScript
null) for every other test. -/
def evaluateEnvCondition (node : JVal) : Option Bool :=
  match node with
  | .obj fs =>
    if typeOf fs = "BinaryExpression" then
      let strSide : Option String :=
        if isProcessEnvNodeEnv (fieldOf fs "left") then extractString (fieldOf fs "right")
        else if isProcessEnvNodeEnv (fieldOf fs "right") then extractString (fieldOf fs "left")
        else none
      match strSide with
      | some s =>
        let op := fieldOf fs "operator"
        if isStrVal op "===" || isStrVal op "==" then some (s = "production")
        else if isStrVal op "!==" || isStrVal op "!=" then some (s ≠ "production")
        else none
      | none => none
    else none
  | _ => none

/-! ## The dependency extractor (src/cli.js lines 74-150) -/

/-- Set.prototype.add on the dependency set: a JavaScript Set keeps
insertion order and ignores re-insertions. -/
def insertDep (deps : List String) (v : String) : List String :=
  if v ∈ deps then deps else deps ++ [v]

def importLikeTypes : List String :=
  ["ImportDeclaration", "ExportNamedDeclaration", "ExportAllDeclaration"]

/-- callee && callee.type === 'Identifier' && callee.name === 'require'. -/
def isRequireCallee (v : JVal) : Bool :=
  match v with
  | .obj cfs => typeOf cfs = "Identifier" && isStrVal (fieldOf cfs "name") "require"
  | _ => false

/-- The ESM import / named re-export / export-all extraction block. -/
def importExportDep (fs : List (String × JVal)) (deps : List String) : List String :=
  if typeOf fs ∈ importLikeTypes then
    if truthy (fieldOf fs "source") then
      match extractString (fieldOf fs "source") with
      | some v => if v ≠ "" then insertDep deps v else deps
      | none => deps
    else deps
  else deps

/-- The dynamic-import (ImportExpression) extraction block. -/
def importExprDep (fs : List (String × JVal)) (deps : List String) : List String :=
  if typeOf fs = "ImportExpression" then
    match extractString (fieldOf fs "source") with
    | some v => if v ≠ "" then insertDep deps v else deps
    | none => deps
  else deps

/-- The CommonJS require() extraction block. -/
def requireDep (fs : List (String × JVal)) (deps : List String) : List String :=
  if typeOf fs = "CallExpression" then
    if isRequireCallee (fieldOf fs "callee") then
      match fieldOf fs "arguments" with
      | .arr (a :: _) =>
        match extractString a with
        | some v => if v ≠ "" then insertDep deps v else deps
        | none => deps
      | _ => deps
    else deps
  else deps

/-- The three extraction blocks of findDependencies, applied in source
order; a node has one type, so at most one block fires, and if (val)
skips the empty string. -/
def extractDeps (fs : List (String × JVal)) (deps : List String) : List String :=
  requireDep fs (importExprDep fs (importExportDep fs deps))

/-- The fixed list of child properties the walker descends into
(src/cli.js lines 138-145). -/
def keysToVisit : List String :=
  ["body", "declarations", "init", "expression", "callee", "arguments",
   "consequent", "alternate", "test", "left", "right", "source", "specifiers",
   "exported", "local", "imported", "program",
   "elements", "properties", "value",
   "block", "handler", "finalizer"]

mutual

/-- Translation of findDependencies from src/cli.js: prune
environment-gated branches of if statements and ternaries, extract
string-literal specifiers, and recurse into the fixed child keys.
The accumulator is the deps Set in insertion order. -/
def findDependencies (node : JVal) (deps : List String) : List String :=
  match node with
  | .arr xs => findDepsList xs deps
  | .obj fs =>
    if typeOf fs = "IfStatement" ∧ evaluateEnvCondition (fieldOf fs "test") = some true then
      findDependencies (fieldOf fs "consequent") deps
    else if typeOf fs = "IfStatement" ∧ evaluateEnvCondition (fieldOf fs "test") = some false then
      if truthy (fieldOf fs "alternate") then findDependencies (fieldOf fs "alternate") deps else deps
    else if typeOf fs = "ConditionalExpression" ∧ evaluateEnvCondition (fieldOf fs "test") = some true then
      findDependencies (fieldOf fs "consequent") deps
    else if typeOf fs = "ConditionalExpression" ∧ evaluateEnvCondition (fieldOf fs "test") = some false then
      findDependencies (fieldOf fs "alternate") deps
    else
      findDepsKeys fs keysToVisit (extractDeps fs deps)
  | _ => deps
termination_by 30 * sizeOf node
decreasing_by
  all_goals simp_wf
  all_goals try simp only [JVal.arr.sizeOf_spec, JVal.obj.sizeOf_spec, keysToVisit, List.length]
  all_goals first
    | (have h := @fieldOf_sizeOf_le fs "consequent"; omega)
    | (have h := @fieldOf_sizeOf_le fs "alternate"; omega)
    | omega

/-- Traversal of an array node child by child (the Array.isArray branch). -/
def findDepsList (xs : List JVal) (deps : List String) : List String :=
  match xs with
  | [] => deps
  | x :: rest => findDepsList rest (findDependencies x deps)
termination_by 30 * sizeOf xs
decreasing_by
  all_goals simp_wf
  all_goals try simp only [List.cons.sizeOf_spec]
  all_goals omega

/-- The body of one iteration of the key loop: if (node[key])
findDependencies(node[key], deps) — the child is visited when the field is
present and truthy. -/
def visitKey (fs : List (String × JVal)) (k : String) (deps : List String) : List String :=
  match hv : lookupA fs k with
  | some v => if truthy v then findDependencies v deps else deps
  | none => deps
termination_by 30 * sizeOf fs + 1
decreasing_by
  simp_wf
  have h := lookupA_sizeOf hv
  omega

/-- The for (const key of keysToVisit) loop: visit each present, truthy
child field in key order. -/
def findDepsKeys (fs : List (String × JVal)) (keys : List String) (deps : List String) : List String :=
  match keys with
  | [] => deps
  | k :: rest => findDepsKeys fs rest (visitKey fs k deps)
termination_by 30 * sizeOf fs + keys.length + 2
decreasing_by
  all_goals simp_wf
  all_goals try simp only [List.length_cons]
  all_goals omega

end

/-! ## Walker lemmas: the accumulator only grows, and growth is monotone -/

theorem mem_insertDep {deps : List String} {v d : String} :
    d ∈ insertDep deps v ↔ d ∈ deps ∨ d = v := by
  unfold insertDep
  split
  · rename_i h
    constructor
    · exact fun hd => Or.inl hd
    · rintro (hd | rfl)
      · exact hd
      · exact h
  · simp

theorem insertDep_extend {deps : List String} {v : String} : deps ⊆ insertDep deps v := by
  intro d hd
  exact mem_insertDep.mpr (Or.inl hd)

theorem insertDep_mono {deps deps' : List String} {v : String} (h : deps ⊆ deps') :
    insertDep deps v ⊆ insertDep deps' v := by
  intro d hd
  rcases mem_insertDep.mp hd with hd | rfl
  · exact mem_insertDep.mpr (Or.inl (h hd))
  · exact mem_insertDep.mpr (Or.inr rfl)

/-- The ESM extraction block either leaves the accumulator unchanged or
inserts one fixed specifier, independently of the accumulator. -/
theorem importExportDep_spec (fs : List (String × JVal)) :
    (∀ deps, importExportDep fs deps = deps) ∨
      ∃ v, ∀ deps, importExportDep fs deps = insertDep deps v := by
  by_cases h1 : typeOf fs ∈ importLikeTypes
  · by_cases h2 : truthy (fieldOf fs "source") = true
    · cases hx : extractString (fieldOf fs "source") with
      | none => exact Or.inl fun deps => by simp [importExportDep, h1, h2, hx]
      | some v =>
        by_cases hv : v = ""
        · exact Or.inl fun deps => by simp [importExportDep, h1, h2, hx, hv]
        · exact Or.inr ⟨v, fun deps => by simp [importExportDep, h1, h2, hx, hv]⟩
    · rw [Bool.not_eq_true] at h2
      exact Or.inl fun deps => by simp [importExportDep, h1, h2]
  · exact Or.inl fun deps => by simp [importExportDep, h1]

/-- The dynamic-import extraction block either leaves the accumulator
unchanged or inserts one fixed specifier. -/
theorem importExprDep_spec (fs : List (String × JVal)) :
    (∀ deps, importExprDep fs deps = deps) ∨
      ∃ v, ∀ deps, importExprDep fs deps = insertDep deps v := by
  by_cases h1 : typeOf fs = "ImportExpression"
  · cases hx : extractString (fieldOf fs "source") with
    | none => exact Or.inl fun deps => by simp [importExprDep, h1, hx]
    | some v =>
      by_cases hv : v = ""
      · exact Or.inl fun deps => by simp [importExprDep, h1, hx, hv]
      · exact Or.inr ⟨v, fun deps => by simp [importExprDep, h1, hx, hv]⟩
  · exact Or.inl fun deps => by simp [importExprDep, h1]

/-- The require extraction block either leaves the accumulator unchanged or
inserts one fixed specifier. -/
theorem requireDep_spec (fs : List (String × JVal)) :
    (∀ deps, requireDep fs deps = deps) ∨
      ∃ v, ∀ deps, requireDep fs deps = insertDep deps v := by
  by_cases h1 : typeOf fs = "CallExpression"
  · by_cases h2 : isRequireCallee (fieldOf fs "callee") = true
    · cases hargs : fieldOf fs "arguments" with
      | arr xs =>
        cases xs with
        | nil => exact Or.inl fun deps => by simp [requireDep, h1, h2, hargs]
        | cons a rest =>
          cases hx : extractString a with
          | none => exact Or.inl fun deps => by simp [requireDep, h1, h2, hargs, hx]
          | some v =>
            by_cases hv : v = ""
            · exact Or.inl fun deps => by simp [requireDep, h1, h2, hargs, hx, hv]
            · exact Or.inr ⟨v, fun deps => by simp [requireDep, h1, h2, hargs, hx, hv]⟩
      | null => exact Or.inl fun deps => by simp [requireDep, h1, h2, hargs]
      | bool b => exact Or.inl fun deps => by simp [requireDep, h1, h2, hargs]
      | num n => exact Or.inl fun deps => by simp [requireDep, h1, h2, hargs]
      | str s => exact Or.inl fun deps => by simp [requireDep, h1, h2, hargs]
      | obj gs => exact Or.inl fun deps => by simp [requireDep, h1, h2, hargs]
    · rw [Bool.not_eq_true] at h2
      exact Or.inl fun deps => by simp [requireDep, h1, h2]
  · exact Or.inl fun deps => by simp [requireDep, h1]

theorem extractDeps_extend (fs : List (String × JVal)) (deps : List String) :
    deps ⊆ extractDeps fs deps := by
  unfold extractDeps
  have e1 : deps ⊆ importExportDep fs deps := by
    rcases importExportDep_spec fs with h | ⟨v, h⟩
    · rw [h]; exact fun _ hx => hx
    · rw [h]; exact insertDep_extend
  have e2 : importExportDep fs deps ⊆ importExprDep fs (importExportDep fs deps) := by
    rcases importExprDep_spec fs with h | ⟨v, h⟩
    · rw [h]; exact fun _ hx => hx
    · rw [h]; exact insertDep_extend
  have e3 : importExprDep fs (importExportDep fs deps) ⊆
      requireDep fs (importExprDep fs (importExportDep fs deps)) := by
    rcases requireDep_spec fs with h | ⟨v, h⟩
    · rw [h]; exact fun _ hx => hx
    · rw [h]; exact insertDep_extend
  exact fun d hd => e3 (e2 (e1 hd))

theorem extractDeps_mono {fs : List (String × JVal)} {deps deps' : List String}
    (h : deps ⊆ deps') : extractDeps fs deps ⊆ extractDeps fs deps' := by
  unfold extractDeps
  have e1 : importExportDep fs deps ⊆ importExportDep fs deps' := by
    rcases importExportDep_spec fs with hh | ⟨v, hh⟩
    · rw [hh, hh]; exact h
    · rw [hh, hh]; exact insertDep_mono h
  have e2 : importExprDep fs (importExportDep fs deps) ⊆
      importExprDep fs (importExportDep fs deps') := by
    rcases importExprDep_spec fs with hh | ⟨v, hh⟩
    · rw [hh, hh]; exact e1
    · rw [hh, hh]; exact insertDep_mono e1
  rcases requireDep_spec fs with hh | ⟨v, hh⟩
  · rw [hh, hh]; exact e2
  · rw [hh, hh]; exact insertDep_mono e2

/-! Unfolding equations for the walker, stated once and reused. -/

theorem findDependencies_null (deps : List String) :
    findDependencies .null deps = deps := by
  rw [findDependencies.eq_def]

theorem findDependencies_bool (b : Bool) (deps : List String) :
    findDependencies (.bool b) deps = deps := by
  rw [findDependencies.eq_def]

theorem findDependencies_num (n : Int) (deps : List String) :
    findDependencies (.num n) deps = deps := by
  rw [findDependencies.eq_def]

theorem findDependencies_str (s : String) (deps : List String) :
    findDependencies (.str s) deps = deps := by
  rw [findDependencies.eq_def]

theorem findDependencies_arr (xs : List JVal) (deps : List String) :
    findDependencies (.arr xs) deps = findDepsList xs deps := by
  rw [findDependencies.eq_def]

theorem findDependencies_obj (fs : List (String × JVal)) (deps : List String) :
    findDependencies (.obj fs) deps =
      (if typeOf fs = "IfStatement" ∧ evaluateEnvCondition (fieldOf fs "test") = some true then
        findDependencies (fieldOf fs "consequent") deps
      else if typeOf fs = "IfStatement" ∧ evaluateEnvCondition (fieldOf fs "test") = some false then
        if truthy (fieldOf fs "alternate") then findDependencies (fieldOf fs "alternate") deps else deps
      else if typeOf fs = "ConditionalExpression" ∧ evaluateEnvCondition (fieldOf fs "test") = some true then
        findDependencies (fieldOf fs "consequent") deps
      else if typeOf fs = "ConditionalExpression" ∧ evaluateEnvCondition (fieldOf fs "test") = some false then
        findDependencies (fieldOf fs "alternate") deps
      else
        findDepsKeys fs keysToVisit (extractDeps fs deps)) := by
  rw [findDependencies.eq_def]

theorem findDepsList_nil (deps : List String) : findDepsList [] deps = deps := by
  rw [findDepsList.eq_def]

theorem findDepsList_cons (x : JVal) (rest : List JVal) (deps : List String) :
    findDepsList (x :: rest) deps = findDepsList rest (findDependencies x deps) := by
  rw [findDepsList.eq_def]

theorem findDepsKeys_nil (fs : List (String × JVal)) (deps : List String) :
    findDepsKeys fs [] deps = deps := by
  rw [findDepsKeys.eq_def]

theorem findDepsKeys_cons (fs : List (String × JVal)) (k : String) (rest : List String)
    (deps : List String) :
    findDepsKeys fs (k :: rest) deps = findDepsKeys fs rest (visitKey fs k deps) := by
  rw [findDepsKeys.eq_def]

theorem visitKey_some {fs : List (String × JVal)} {k : String} {v : JVal}
    (hv : lookupA fs k = some v) (deps : List String) :
    visitKey fs k deps = if truthy v then findDependencies v deps else deps := by
  unfold visitKey
  split
  · rename_i v' hv'
    rw [hv] at hv'
    cases hv'
    rfl
  · rename_i hv'
    rw [hv] at hv'
    cases hv'

theorem visitKey_none {fs : List (String × JVal)} {k : String}
    (hv : lookupA fs k = none) (deps : List String) :
    visitKey fs k deps = deps := by
  unfold visitKey
  split
  · rename_i v' hv'
    rw [hv] at hv'
    cases hv'
  · rfl

/-- Packaged induction statement: every walker function only ever appends
to the accumulator (the JavaScript Set never shrinks). -/
theorem findDeps_extend_all (n : Nat) :
    (∀ node deps, 30 * sizeOf node ≤ n → deps ⊆ findDependencies node deps) ∧
    (∀ xs deps, 30 * sizeOf xs ≤ n → deps ⊆ findDepsList xs deps) ∧
    (∀ (fs : List (String × JVal)) keys deps,
      30 * sizeOf fs + keys.length + 2 ≤ n → deps ⊆ findDepsKeys fs keys deps) := by
  induction n using Nat.strong_induction_on with
  | _ n IH =>
    have hK : keysToVisit.length = 23 := by rfl
    refine ⟨?_, ?_, ?_⟩
    · intro node deps hn
      cases node with
      | null => rw [findDependencies_null]; exact fun _ h => h
      | bool b => rw [findDependencies_bool]; exact fun _ h => h
      | num m => rw [findDependencies_num]; exact fun _ h => h
      | str s => rw [findDependencies_str]; exact fun _ h => h
      | arr xs =>
        simp only [JVal.arr.sizeOf_spec] at hn
        rw [findDependencies_arr]
        exact (IH (30 * sizeOf xs + 1) (by omega)).2.1 xs deps (by omega)
      | obj fs =>
        simp only [JVal.obj.sizeOf_spec] at hn
        have hc := @fieldOf_sizeOf_le fs "consequent"
        have ha := @fieldOf_sizeOf_le fs "alternate"
        rw [findDependencies_obj]
        split_ifs with h1 h2 h3 h4 h5
        · exact (IH (30 * sizeOf (fieldOf fs "consequent") + 1) (by omega)).1 _ deps (by omega)
        · exact (IH (30 * sizeOf (fieldOf fs "alternate") + 1) (by omega)).1 _ deps (by omega)
        · exact fun d hd => hd
        · exact (IH (30 * sizeOf (fieldOf fs "consequent") + 1) (by omega)).1 _ deps (by omega)
        · exact (IH (30 * sizeOf (fieldOf fs "alternate") + 1) (by omega)).1 _ deps (by omega)
        · intro d hd
          exact (IH (30 * sizeOf fs + keysToVisit.length + 3) (by omega)).2.2 fs keysToVisit _
            (by omega) (extractDeps_extend fs deps hd)
    · intro xs deps hn
      cases xs with
      | nil => rw [findDepsList_nil]; exact fun _ h => h
      | cons x rest =>
        simp only [List.cons.sizeOf_spec] at hn
        rw [findDepsList_cons]
        intro d hd
        have h1 : deps ⊆ findDependencies x deps :=
          (IH (30 * sizeOf x + 1) (by omega)).1 x deps (by omega)
        have h2 : findDependencies x deps ⊆ findDepsList rest (findDependencies x deps) :=
          (IH (30 * sizeOf rest + 1) (by omega)).2.1 rest _ (by omega)
        exact h2 (h1 hd)
    · intro fs keys
      induction keys with
      | nil =>
        intro deps hn
        rw [findDepsKeys_nil]
        exact fun _ h => h
      | cons k rest ihK =>
        intro deps hn
        simp only [List.length_cons] at hn
        rw [findDepsKeys_cons]
        intro d hd
        have hv : deps ⊆ visitKey fs k deps := by
          cases hvk : lookupA fs k with
          | none => rw [visitKey_none hvk]; exact fun _ h => h
          | some v =>
            rw [visitKey_some hvk]
            split_ifs with ht
            · have hlt := lookupA_sizeOf hvk
              exact (IH (30 * sizeOf v + 1) (by omega)).1 v deps (by omega)
            · exact fun d hd => hd
        exact ihK (visitKey fs k deps) (by omega) (hv hd)

theorem findDependencies_extend (node : JVal) (deps : List String) :
    deps ⊆ findDependencies node deps :=
  (findDeps_extend_all (30 * sizeOf node)).1 node deps le_rfl

theorem findDepsKeys_extend (fs : List (String × JVal)) (keys deps : List String) :
    deps ⊆ findDepsKeys fs keys deps :=
  (findDeps_extend_all (30 * sizeOf fs + keys.length + 2)).2.2 fs keys deps le_rfl

/-- Packaged induction statement: every walker function is monotone in the
accumulator (growing the Set before the walk can only grow the result). -/
theorem findDeps_mono_all (n : Nat) :
    (∀ node deps deps', deps ⊆ deps' → 30 * sizeOf node ≤ n →
      findDependencies node deps ⊆ findDependencies node deps') ∧
    (∀ xs deps deps', deps ⊆ deps' → 30 * sizeOf xs ≤ n →
      findDepsList xs deps ⊆ findDepsList xs deps') ∧
    (∀ (fs : List (String × JVal)) keys deps deps', deps ⊆ deps' →
      30 * sizeOf fs + keys.length + 2 ≤ n →
      findDepsKeys fs keys deps ⊆ findDepsKeys fs keys deps') := by
  induction n using Nat.strong_induction_on with
  | _ n IH =>
    have hK : keysToVisit.length = 23 := by rfl
    refine ⟨?_, ?_, ?_⟩
    · intro node deps deps' hsub hn
      cases node with
      | null => rw [findDependencies_null, findDependencies_null]; exact hsub
      | bool b => rw [findDependencies_bool, findDependencies_bool]; exact hsub
      | num m => rw [findDependencies_num, findDependencies_num]; exact hsub
      | str s => rw [findDependencies_str, findDependencies_str]; exact hsub
      | arr xs =>
        simp only [JVal.arr.sizeOf_spec] at hn
        rw [findDependencies_arr, findDependencies_arr]
        exact (IH (30 * sizeOf xs + 1) (by omega)).2.1 xs deps deps' hsub (by omega)
      | obj fs =>
        simp only [JVal.obj.sizeOf_spec] at hn
        have hc := @fieldOf_sizeOf_le fs "consequent"
        have ha := @fieldOf_sizeOf_le fs "alternate"
        rw [findDependencies_obj, findDependencies_obj]
        split_ifs with h1 h2 h3 h4 h5
        · exact (IH (30 * sizeOf (fieldOf fs "consequent") + 1) (by omega)).1 _ deps deps'
            hsub (by omega)
        · exact (IH (30 * sizeOf (fieldOf fs "alternate") + 1) (by omega)).1 _ deps deps'
            hsub (by omega)
        · exact hsub
        · exact (IH (30 * sizeOf (fieldOf fs "consequent") + 1) (by omega)).1 _ deps deps'
            hsub (by omega)
        · exact (IH (30 * sizeOf (fieldOf fs "alternate") + 1) (by omega)).1 _ deps deps'
            hsub (by omega)
        · exact (IH (30 * sizeOf fs + keysToVisit.length + 3) (by omega)).2.2 fs keysToVisit _ _
            (extractDeps_mono hsub) (by omega)
    · intro xs deps deps' hsub hn
      cases xs with
      | nil => rw [findDepsList_nil, findDepsList_nil]; exact hsub
      | cons x rest =>
        simp only [List.cons.sizeOf_spec] at hn
        rw [findDepsList_cons, findDepsList_cons]
        have h1 : findDependencies x deps ⊆ findDependencies x deps' :=
          (IH (30 * sizeOf x + 1) (by omega)).1 x deps deps' hsub (by omega)
        exact (IH (30 * sizeOf rest + 1) (by omega)).2.1 rest _ _ h1 (by omega)
    · intro fs keys
      induction keys with
      | nil =>
        intro deps deps' hsub hn
        rw [findDepsKeys_nil, findDepsKeys_nil]
        exact hsub
      | cons k rest ihK =>
        intro deps deps' hsub hn
        simp only [List.length_cons] at hn
        rw [findDepsKeys_cons, findDepsKeys_cons]
        have hv : visitKey fs k deps ⊆ visitKey fs k deps' := by
          cases hvk : lookupA fs k with
          | none => rw [visitKey_none hvk, visitKey_none hvk]; exact hsub
          | some v =>
            rw [visitKey_some hvk, visitKey_some hvk]
            split_ifs with ht
            · have hlt := lookupA_sizeOf hvk
              exact (IH (30 * sizeOf v + 1) (by omega)).1 v deps deps' hsub (by omega)
            · exact hsub
        exact ihK _ _ hv (by omega)

theorem findDependencies_mono {node : JVal} {deps deps' : List String} (h : deps ⊆ deps') :
    findDependencies node deps ⊆ findDependencies node deps' :=
  (findDeps_mono_all (30 * sizeOf node)).1 node deps deps' h le_rfl

/-- Whatever a visited, truthy child of a traversed object contributes on
its own is contained in the result of the key loop, whatever the
accumulator. -/
theorem findDepsKeys_collects {fs : List (String × JVal)} {keys : List String} {k : String}
    {v : JVal} {d : String} (hk : k ∈ keys) (hv : lookupA fs k = some v)
    (ht : truthy v = true) (hd : d ∈ findDependencies v []) :
    ∀ acc, d ∈ findDepsKeys fs keys acc := by
  induction keys with
  | nil => cases hk
  | cons k' rest ihK =>
    intro acc
    rw [findDepsKeys_cons]
    by_cases hkk : k' = k
    · subst hkk
      have hvk : visitKey fs k' acc = findDependencies v acc := by
        rw [visitKey_some hv, if_pos ht]
      rw [hvk]
      have h1 : d ∈ findDependencies v acc :=
        findDependencies_mono (List.nil_subset acc) hd
      exact findDepsKeys_extend fs rest (findDependencies v acc) h1
    · have hk' : k ∈ rest := by
        cases hk with
        | head => exact absurd rfl hkk
        | tail _ h => exact h
      exact ihK hk' (visitKey fs k' acc)

/-! ## URL joining (model of the WHATWG URL platform API)

The source calls new URL(entry, base).href with base an absolute http(s)
URL ending in a slash (the package base) or an absolute http(s) file URL
(the parent module).  urlJoin models that call for the reference shapes
this program produces: an absolute http(s) URL, a root-relative path, and
a relative path without dot-dot segments.  -/

/-- The base up to and including its last slash (the directory part used
for relative reference resolution). -/
def dirOf (base : String) : String :=
  ⟨(base.data.reverse.dropWhile (fun c => c ≠ '/')).reverse⟩

/-- scheme://host of an absolute http(s) URL. -/
def originOf (base : String) : String :=
  match strSplit base '/' with
  | s0 :: _ :: host :: _ => s0 ++ "//" ++ host
  | _ => base

/-- Model of new URL(rel, base).href for the shapes in play. -/
def urlJoin (rel base : String) : String :=
  if strStartsWith rel "http://" || strStartsWith rel "https://" then rel
  else if strStartsWith rel "/" then originOf base ++ rel
  else if strStartsWith rel "./" then dirOf base ++ strDrop rel 2
  else dirOf base ++ rel

/-! ## Package resolution (src/cli.js lines 155-229) -/

def JSDELIVR_BASE : String := "https://cdn.jsdelivr.net/npm/"

/-- The builtin set of src/cli.js (the acorn variant). -/
def NODE_BUILTINS : List String :=
  ["fs", "path", "os", "crypto", "stream", "http", "https", "zlib", "url", "util",
   "buffer", "events", "assert", "child_process", "process", "net", "tls", "dgram",
   "dns", "perf_hooks", "worker_threads"]

/-- The builtin set of the oxc variant, which additionally lists three
node:-prefixed names. -/
def NODE_BUILTINS_OXC : List String :=
  NODE_BUILTINS ++ ["node:fs", "node:path", "node:process"]

/-- Translation of parseBareSpecifier: split a bare specifier into package
name (respecting the scoped form) and subpath. -/
def parseBareSpecifier (specifier : String) : String × String :=
  if strStartsWith specifier "@" then
    let parts := strSplit specifier '/'
    let p1 := match parts with
      | _ :: p :: _ => p
      | _ => ""
    (parts.headD "" ++ "/" ++ p1, strJoin "/" (parts.drop 2))
  else
    let parts := strSplit specifier '/'
    (parts.headD "", strJoin "/" (parts.drop 1))

/-- Template-literal stringification of the manifest fields interpolated
into the package base URL.  In a well-formed manifest name and version are
strings; the remaining cases model the JavaScript stringification of
primitives, with null standing for an absent field (which JavaScript
interpolates as undefined). -/
def jsShow : JVal → String
  | .str s => s
  | .num n => toString n
  | .bool b => if b then "true" else "false"
  | .null => "undefined"
  | .arr _ => ""
  | .obj _ => "[object Object]"

/-- The fixed priority order of export conditions in resolveExports. -/
def conditions : List String :=
  ["production", "node", "require", "default", "import", "browser"]

/-- cond in exp, for the first condition of the list present as a key. -/
def firstCondition : List String → List (String × JVal) → Option JVal
  | [], _ => none
  | c :: rest, fs =>
    match lookupA fs c with
    | some v => some v
    | none => firstCondition rest fs

theorem firstCondition_sizeOf {cs : List String} {fs : List (String × JVal)} {v : JVal}
    (h : firstCondition cs fs = some v) : sizeOf v < sizeOf fs := by
  induction cs with
  | nil => simp [firstCondition] at h
  | cons c rest ih =>
    simp only [firstCondition] at h
    cases hl : lookupA fs c with
    | some w => rw [hl] at h; cases h; exact lookupA_sizeOf hl
    | none => rw [hl] at h; exact ih h

/-- Translation of resolveExports: a string resolves to itself; an object
resolves through the first present condition of the fixed priority list,
recursing on its value; anything else (including an array, on which none
of the condition keys is present) resolves to null. -/
def resolveExports (exp : JVal) : Option String :=
  match exp with
  | .str s => some s
  | .obj fs =>
    match hv : firstCondition conditions fs with
    | some v => resolveExports v
    | none => none
  | _ => none
termination_by sizeOf exp
decreasing_by
  have h := firstCondition_sizeOf hv
  simp only [JVal.obj.sizeOf_spec]
  omega

theorem resolveExports_str (s : String) : resolveExports (.str s) = some s := by
  rw [resolveExports.eq_def]

theorem resolveExports_obj_some {fs : List (String × JVal)} {v : JVal}
    (hv : firstCondition conditions fs = some v) :
    resolveExports (.obj fs) = resolveExports v := by
  rw [resolveExports.eq_def]
  split
  · rename_i s hs
    cases hs
  · rename_i fs' hfs
    injection hfs with h
    subst h
    split
    · rename_i v' hv'
      rw [hv] at hv'
      cases hv'
      rfl
    · rename_i hv'
      rw [hv] at hv'
      cases hv'
  · rename_i hstr hobj
    exact absurd rfl (hobj fs)

theorem resolveExports_obj_none {fs : List (String × JVal)}
    (hv : firstCondition conditions fs = none) :
    resolveExports (.obj fs) = none := by
  rw [resolveExports.eq_def]
  split
  · rename_i s hs
    cases hs
  · rename_i fs' hfs
    injection hfs with h
    subst h
    split
    · rename_i v' hv'
      rw [hv] at hv'
      cases hv'
    · rfl
  · rename_i hstr hobj
    exact absurd rfl (hobj fs)

/-- Array.from(new Set(l)): first occurrences in insertion order. -/
def dedupSeen : List String → List String → List String
  | [], _ => []
  | x :: xs, seen =>
    if x ∈ seen then dedupSeen xs seen else x :: dedupSeen xs (x :: seen)

def jsSetList (l : List String) : List String := dedupSeen l []

/-- The entries list built inside resolvePackageUrl, before filtering,
dedup and joining.  Every push in the source is guarded by a truthiness
check except the raw subpath and the index.js fallback; a non-string
truthy main or module field (which would crash the JavaScript later at
entry.startsWith) is outside this model and dropped. -/
def packageEntries (pkgObj : JVal) (subpath : String) : List String :=
  if subpath ≠ "" then
    (let ex := getOf pkgObj "exports"
     if truthy ex then
       let exportKey := "./" ++ subpath
       let target := jsOr (getOf ex exportKey) (getOf ex (exportKey ++ ".js"))
       if truthy target then
         match resolveExports target with
         | some s => if s ≠ "" then [s] else []
         | none => []
       else []
     else []) ++ [subpath]
  else
    (let ex := getOf pkgObj "exports"
     if truthy ex then
       match resolveExports (jsOr (getOf ex ".") ex) with
       | some s => if s ≠ "" then [s] else []
       | none => []
     else []) ++
    (match getOf pkgObj "main" with
     | .str s => if s ≠ "" then [s] else []
     | _ => []) ++
    (match getOf pkgObj "module" with
     | .str s => if s ≠ "" then [s] else []
     | _ => []) ++
    ["index.js"]

/-- A successful HTTP response: its post-redirect URL (res.url) and its
body text. -/
structure Resp where
  url : String
  text : String
deriving DecidableEq

/-- The external collaborators, fixed for one run.

net models global fetch of a candidate file: some r when the GET
succeeded with an ok status, none on a network error or a non-ok status.
manifest models fetch of a package.json URL followed by res.json(): the
parsed manifest, or none when the response was not ok or not JSON.
parse models acorn.parse, tried as module then as script: the syntax
tree, or none when both attempts threw. -/
structure Oracles where
  net : String → Option Resp
  manifest : String → Option JVal
  parse : String → Option JVal

/-- The resolver-owned mutable state: pkgResolveCache (keyed by the full
specifier string, exactly as in the source) plus instrumentation recording
each manifest URL actually fetched. -/
structure PkgSt where
  cache : List (String × List String)
  manifestLog : List String

/-- Translation of resolvePackageUrl: answer from the specifier-keyed
cache, otherwise fetch the manifest once, build the candidate entries,
filter out falsy ones, dedup preserving order, join each against the
package base (which uses the manifest's resolved name@version when the
manifest fetch succeeded), and cache the result under the specifier. -/
def resolvePackageUrl (o : Oracles) (specifier : String) (st : PkgSt) :
    List String × PkgSt :=
  match lookupA st.cache specifier with
  | some urls => (urls, st)
  | none =>
    let pq := parseBareSpecifier specifier
    let murl := JSDELIVR_BASE ++ pq.1 ++ "/package.json"
    let pb :=
      match o.manifest murl with
      | some j =>
        (j, JSDELIVR_BASE ++ jsShow (getOf j "name") ++ "@" ++ jsShow (getOf j "version") ++ "/")
      | none => (JVal.obj [], JSDELIVR_BASE ++ pq.1 ++ "/")
    let entries := packageEntries pb.1 pq.2
    let targetUrls := (jsSetList (entries.filter (fun e => e ≠ ""))).map (fun entry =>
      urlJoin (if strStartsWith entry "./" then strDrop entry 2 else entry) pb.2)
    (targetUrls, { cache := st.cache ++ [(specifier, targetUrls)],
                   manifestLog := st.manifestLog ++ [murl] })

/-! ## Specifier classification (src/cli.js lines 257-266, and the oxc
variant at the corresponding place) -/

/-- Translation of resolveUrl from src/cli.js: note that the absolute-URL
test url.startsWith('http') runs before the builtin test. -/
def resolveUrl (o : Oracles) (url : String) (baseUrl : Option String) (st : PkgSt) :
    Option (List String) × PkgSt :=
  if strStartsWith url "http" then (some [url], st)
  else if NODE_BUILTINS.contains url || strStartsWith url "node:" then (none, st)
  else if strStartsWith url "." || strStartsWith url "/" then
    match baseUrl with
    | none => (some [url], st)
    | some b => (some [urlJoin url b], st)
  else
    let rs := resolvePackageUrl o url st
    (some rs.1, rs.2)

def isLocalFile (u : String) : Bool := !(strStartsWith u "http")

/-- Model of path.dirname for a path containing a separator. -/
def pathDirname (p : String) : String :=
  ⟨(dirOf p).data.dropLast⟩

/-- Model of path.resolve(dir, rel) for the shapes in play (no dot-dot
normalisation). -/
def pathResolve (dir rel : String) : String :=
  if strStartsWith rel "/" then rel
  else dir ++ "/" ++ (if strStartsWith rel "./" then strDrop rel 2 else rel)

/-- Translation of resolveUrl from the oxc variant: the builtin test runs
first, and a relative specifier against a local base resolves on the
filesystem. -/
def resolveUrlOxc (o : Oracles) (url : String) (baseUrl : Option String) (st : PkgSt) :
    Option (List String) × PkgSt :=
  if NODE_BUILTINS_OXC.contains url || strStartsWith url "node:" then (none, st)
  else if strStartsWith url "http" then (some [url], st)
  else if strStartsWith url "." || strStartsWith url "/" then
    match baseUrl with
    | none => (some [url], st)
    | some b =>
      if isLocalFile b then (some [pathResolve (pathDirname b) url], st)
      else (some [urlJoin url b], st)
  else
    let rs := resolvePackageUrl o url st
    (some rs.1, rs.2)

/-! ## The content fetcher (src/cli.js lines 239-255) -/

/-- url.match of the source-extension pattern: a match exists exactly when
the url ends in .js, .mjs, .cjs or .ts. -/
def srcExt (u : String) : Bool :=
  strEndsWith u ".js" || strEndsWith u ".mjs" || strEndsWith u ".cjs" || strEndsWith u ".ts"

/-- One iteration of the candidate loop of fetchFile: the direct URL, then
(only when the direct try failed and the URL does not already look like a
source file) the .js, .mjs and /index.js suffixes, short-circuiting on the
first success exactly like the JavaScript || chain. -/
def tryCandidate (net : String → Option Resp) (u : String) : Option Resp :=
  match net u with
  | some r => some r
  | none =>
    if srcExt u then none
    else
      match net (u ++ ".js") with
      | some r => some r
      | none =>
        match net (u ++ ".mjs") with
        | some r => some r
        | none => net (u ++ "/index.js")

/-- The candidate loop of fetchFile. -/
def fetchFileGo (net : String → Option Resp) : List String → Option Resp
  | [] => none
  | u :: rest =>
    match tryCandidate net u with
    | some r => some r
    | none => fetchFileGo net rest

/-- Translation of fetchFile: on the first success, the body text together
with the canonical (post-redirect) location res.url; after exhausting
every candidate and every applicable suffix, the thrown error (which
mentions urls[0]). -/
def fetchFile (net : String → Option Resp) (urls : List String) :
    Except String (String × String) :=
  match fetchFileGo net urls with
  | some r => .ok (r.text, r.url)
  | none => .error ("Fetch failed: " ++ urls.headD "undefined")

/-! ## The resolution orchestrator (src/cli.js lines 233-355)

enqueueFile(url, baseUrl) synchronously increments the live-task counter
and starts an async body that suspends at each await.  The synchronous
segments between suspension points are the atomic steps of the model:

* resolving — the segment around await resolveUrl (the whole resolution,
  including a possible manifest fetch, taken as one atomic step); when it
  yields no candidates the finally block runs in the same segment;
* fetching — the segment that performs the primaryUrl dedup check and
  await fetchFile (taken as one atomic step, since fetchFile touches no
  shared state); on failure the catch and finally blocks run here;
* finishing — the synchronous tail after the fetch resolves: the finalUrl
  dedup check, the marking of parsedUrls, the bundle push, the parse, the
  dependency walk, the recursive enqueueFile calls, and the finally block.

A schedule (a list of task indices) resolves the cooperative
interleaving; an out-of-range index advances nothing.  The suspension
between the fetching and finishing steps of a task is exactly the window
in which the visited check and the marking of the same location can be
separated by other tasks.  -/

inductive TaskPhase where
  | resolving : TaskPhase
  | fetching : List String → TaskPhase
  | finishing : String → String → String → TaskPhase

/-- One in-flight enqueueFile task: its specifier, its base, and how far
its body has run.  The finishing phase carries (primaryUrl, code,
finalUrl). -/
structure RunTask where
  url : String
  base : Option String
  phase : TaskPhase

/-- The run-scoped shared state.  bundle pairs each pushed text with the
canonical location it was pushed for (the first components are
bundleParts; the second components, like fetchLog and parseLog, are
instrumentation recording which location each event concerned).
fires counts invocations of the completion callback onQueueEmpty;
fetchLog records the canonical (post-redirect) location of every
successful content retrieval; parseLog records each location whose text
was handed to the parser. -/
structure St where
  tasks : List RunTask
  parsedUrls : List String
  bundle : List (String × String)
  pkg : PkgSt
  activeTasks : Nat
  queueEmptySet : Bool
  fires : Nat
  fetchLog : List String
  parseLog : List String
  errLog : List String
  warnLog : List String

/-- enqueueFile's synchronous prefix: activeTasks++ and a new resolving
task. -/
def spawnTask (url : String) (base : Option String) (st : St) : St :=
  { st with tasks := st.tasks ++ [⟨url, base, .resolving⟩],
            activeTasks := st.activeTasks + 1 }

/-- for (const dep of deps) enqueueFile(dep, finalUrl). -/
def spawnAll : List String → String → St → St
  | [], _, st => st
  | d :: rest, base, st => spawnAll rest base (spawnTask d (some base) st)

/-- The finally block of a task body: activeTasks-- and, if the counter
hit zero with the completion callback installed, fire it. -/
def finishTask (i : Nat) (st : St) : St :=
  let tasks' := st.tasks.eraseIdx i
  let a := st.activeTasks - 1
  { st with tasks := tasks',
            activeTasks := a,
            fires := if a = 0 ∧ st.queueEmptySet = true then st.fires + 1 else st.fires }

/-- The marking-and-push segment of a finishing task: parsedUrls.add of
the final (and, when different, the primary) URL, the bundleParts.push,
and the parse attempt that immediately follows (recorded in parseLog). -/
def pushModule (st : St) (code finalUrl primary : String) : St :=
  { st with
    parsedUrls := st.parsedUrls ++ [finalUrl] ++
      (if primary = finalUrl then [] else [primary]),
    bundle := st.bundle ++ [(code, finalUrl)],
    parseLog := st.parseLog ++ [finalUrl] }

/-- Advance task i by one atomic step (see the section comment for the
correspondence with the segments of the JavaScript task body). -/
def stepTask (o : Oracles) (st : St) (i : Nat) : St :=
  match st.tasks[i]? with
  | none => st
  | some t =>
    match t.phase with
    | .resolving =>
      match (resolveUrl o t.url t.base st.pkg).1 with
      | none => finishTask i { st with pkg := (resolveUrl o t.url t.base st.pkg).2 }
      | some [] => finishTask i { st with pkg := (resolveUrl o t.url t.base st.pkg).2 }
      | some (u :: us) =>
        { st with pkg := (resolveUrl o t.url t.base st.pkg).2,
                  tasks := st.tasks.set i { t with phase := .fetching (u :: us) } }
    | .fetching targets =>
      if targets.headD "" ∈ st.parsedUrls then finishTask i st
      else
        match fetchFile o.net targets with
        | .error _ =>
          finishTask i { st with errLog := st.errLog ++ ["Failed to fetch: " ++ t.url] }
        | .ok cf =>
          { st with fetchLog := st.fetchLog ++ [cf.2],
                    tasks := st.tasks.set i { t with phase := .finishing (targets.headD "") cf.1 cf.2 } }
    | .finishing primary code finalUrl =>
      if finalUrl ∈ st.parsedUrls then finishTask i st
      else
        match o.parse code with
        | none =>
          finishTask i { pushModule st code finalUrl primary with
                         warnLog := st.warnLog ++ ["Parse failed for " ++ finalUrl] }
        | some ast =>
          finishTask i (spawnAll (findDependencies ast []) finalUrl
            (pushModule st code finalUrl primary))

def initSt : St :=
  ⟨[], [], [], ⟨[], []⟩, 0, false, 0, [], [], [], []⟩

/-- The start of run(): enqueueFile(pkg, null), then the completion
promise's executor, which fires immediately if no task is live and
otherwise installs onQueueEmpty. -/
def startRun (entry : String) : St :=
  let st := spawnTask entry none initSt
  if st.activeTasks = 0 then { st with fires := st.fires + 1 }
  else { st with queueEmptySet := true }

/-- One whole run under a given schedule. -/
def exec (o : Oracles) (entry : String) (choices : List Nat) : St :=
  choices.foldl (stepTask o) (startRun entry)

/-- The tail of run() once the completion promise has resolved: exit
code 1 with no report on an empty bundle, otherwise a normal exit with
the final report printed. -/
def runReport (st : St) : Nat × Bool :=
  if st.bundle.isEmpty then (1, false) else (0, true)

/-- The canonical locations the bundle entries were pushed for. -/
def bundleFinals (st : St) : List String := st.bundle.map Prod.snd

/-! ## The run invariant: counter bookkeeping and bundle deduplication -/

/-- The invariant every reachable state of a run satisfies: the live-task
counter equals the number of in-flight tasks, the completion callback is
installed, the completion signal has fired exactly once if and only if
the task graph has drained, a parse is attempted exactly for the pushed
bundle entries, the bundle holds at most one entry per canonical
location, and every bundled location has been marked visited. -/
def RunInv (st : St) : Prop :=
  st.activeTasks = st.tasks.length ∧
  st.queueEmptySet = true ∧
  st.fires = (if st.tasks.isEmpty then 1 else 0) ∧
  st.parseLog = bundleFinals st ∧
  (bundleFinals st).Nodup ∧
  ∀ f ∈ bundleFinals st, f ∈ st.parsedUrls

theorem spawnAll_tasks (deps : List String) (base : String) (st : St) :
    (spawnAll deps base st).tasks =
      st.tasks ++ deps.map (fun d => ⟨d, some base, TaskPhase.resolving⟩) := by
  induction deps generalizing st with
  | nil => simp [spawnAll]
  | cons d rest ih => simp [spawnAll, spawnTask, ih]

theorem spawnAll_activeTasks (deps : List String) (base : String) (st : St) :
    (spawnAll deps base st).activeTasks = st.activeTasks + deps.length := by
  induction deps generalizing st with
  | nil => simp [spawnAll]
  | cons d rest ih => simp [spawnAll, spawnTask, ih]; omega

theorem spawnAll_parsedUrls (deps : List String) (base : String) (st : St) :
    (spawnAll deps base st).parsedUrls = st.parsedUrls := by
  induction deps generalizing st with
  | nil => rfl
  | cons d rest ih => simp [spawnAll, spawnTask, ih]

theorem spawnAll_bundle (deps : List String) (base : String) (st : St) :
    (spawnAll deps base st).bundle = st.bundle := by
  induction deps generalizing st with
  | nil => rfl
  | cons d rest ih => simp [spawnAll, spawnTask, ih]

theorem spawnAll_parseLog (deps : List String) (base : String) (st : St) :
    (spawnAll deps base st).parseLog = st.parseLog := by
  induction deps generalizing st with
  | nil => rfl
  | cons d rest ih => simp [spawnAll, spawnTask, ih]

theorem spawnAll_fetchLog (deps : List String) (base : String) (st : St) :
    (spawnAll deps base st).fetchLog = st.fetchLog := by
  induction deps generalizing st with
  | nil => rfl
  | cons d rest ih => simp [spawnAll, spawnTask, ih]

theorem spawnAll_errLog (deps : List String) (base : String) (st : St) :
    (spawnAll deps base st).errLog = st.errLog := by
  induction deps generalizing st with
  | nil => rfl
  | cons d rest ih => simp [spawnAll, spawnTask, ih]

theorem spawnAll_warnLog (deps : List String) (base : String) (st : St) :
    (spawnAll deps base st).warnLog = st.warnLog := by
  induction deps generalizing st with
  | nil => rfl
  | cons d rest ih => simp [spawnAll, spawnTask, ih]

theorem spawnAll_fires (deps : List String) (base : String) (st : St) :
    (spawnAll deps base st).fires = st.fires := by
  induction deps generalizing st with
  | nil => rfl
  | cons d rest ih => simp [spawnAll, spawnTask, ih]

theorem spawnAll_queueEmptySet (deps : List String) (base : String) (st : St) :
    (spawnAll deps base st).queueEmptySet = st.queueEmptySet := by
  induction deps generalizing st with
  | nil => rfl
  | cons d rest ih => simp [spawnAll, spawnTask, ih]

theorem spawnAll_pkg (deps : List String) (base : String) (st : St) :
    (spawnAll deps base st).pkg = st.pkg := by
  induction deps generalizing st with
  | nil => rfl
  | cons d rest ih => simp [spawnAll, spawnTask, ih]

/-- The finally block preserves the invariant whenever it closes an
actually existing task. -/
theorem isEmpty_false_of_length {α : Type} {l : List α} (h : l.length ≠ 0) :
    l.isEmpty = false := by
  cases l with
  | nil => simp at h
  | cons a b => rfl

theorem isEmpty_true_of_length {α : Type} {l : List α} (h : l.length = 0) :
    l.isEmpty = true := by
  cases l with
  | nil => rfl
  | cons a b => simp at h

/-- The finally block preserves the invariant whenever it closes an
actually existing task. -/
theorem finishTask_inv {st : St} {i : Nat} (hi : i < st.tasks.length) (h : RunInv st) :
    RunInv (finishTask i st) := by
  obtain ⟨h1, h2, h3, h4, h5, h6⟩ := h
  have hlen : (st.tasks.eraseIdx i).length = st.tasks.length - 1 :=
    List.length_eraseIdx_of_lt hi
  have hb : st.tasks.isEmpty = false := isEmpty_false_of_length (by omega)
  have h30 : st.fires = 0 := by rw [h3, hb]; rfl
  refine ⟨?_, h2, ?_, h4, h5, h6⟩
  · simp [finishTask, hlen, h1]
  · simp only [finishTask]
    by_cases hz : st.activeTasks - 1 = 0
    · have hemp : (st.tasks.eraseIdx i).isEmpty = true :=
        isEmpty_true_of_length (by omega)
    --  counter hit zero: the callback fires once
      simp [hz, h2, hemp, h30]
    · have hemp : (st.tasks.eraseIdx i).isEmpty = false :=
        isEmpty_false_of_length (by omega)
      simp [hz, h2, hemp, h30]

theorem isEmpty_eq_decide {α : Type} (l : List α) : l.isEmpty = decide (l.length = 0) := by
  cases l with
  | nil => rfl
  | cons a b => simp

theorem isEmpty_set {α : Type} (l : List α) (i : Nat) (x : α) :
    (l.set i x).isEmpty = l.isEmpty := by
  rw [isEmpty_eq_decide, isEmpty_eq_decide, List.length_set]

/-- Every atomic step of every task preserves the run invariant, whatever
the oracles and whichever task the scheduler picks. -/
theorem stepTask_inv (o : Oracles) (st : St) (i : Nat) (h : RunInv st) :
    RunInv (stepTask o st i) := by
  obtain ⟨h1, h2, h3, h4, h5, h6⟩ := h
  unfold stepTask
  split
  · exact ⟨h1, h2, h3, h4, h5, h6⟩
  · rename_i t hti
    have hilt : i < st.tasks.length := by
      by_contra hge
      push_neg at hge
      rw [List.getElem?_eq_none hge] at hti
      cases hti
    split
    · -- resolving phase
      split
      · exact finishTask_inv hilt ⟨h1, h2, h3, h4, h5, h6⟩
      · exact finishTask_inv hilt ⟨h1, h2, h3, h4, h5, h6⟩
      · refine ⟨?_, h2, ?_, h4, h5, h6⟩
        · simpa [List.length_set] using h1
        · rw [isEmpty_set]
          exact h3
    · -- fetching phase
      split
      · exact finishTask_inv hilt ⟨h1, h2, h3, h4, h5, h6⟩
      · split
        · exact finishTask_inv hilt ⟨h1, h2, h3, h4, h5, h6⟩
        · refine ⟨?_, h2, ?_, h4, h5, h6⟩
          · simpa [List.length_set] using h1
          · rw [isEmpty_set]
            exact h3
    · -- finishing phase
      rename_i primary code finalUrl htp
      split
      · exact finishTask_inv hilt ⟨h1, h2, h3, h4, h5, h6⟩
      · rename_i hmem
        have hnotin : finalUrl ∉ bundleFinals st := fun hin => hmem (h6 finalUrl hin)
        have hpush : RunInv (pushModule st code finalUrl primary) := by
          refine ⟨h1, h2, h3, ?_, ?_, ?_⟩
          · simp only [pushModule, bundleFinals] at h4 ⊢
            simp [h4]
          · simp only [pushModule, bundleFinals] at h5 hnotin ⊢
            simp only [List.map_append, List.map_cons, List.map_nil]
            rw [List.nodup_append]
            refine ⟨h5, List.nodup_singleton _, ?_⟩
            intro a ha hb
            simp at hb
            subst hb
            exact hnotin ha
          · intro f hf
            simp only [pushModule, bundleFinals, List.map_append, List.map_cons,
              List.map_nil] at hf ⊢
            rcases List.mem_append.mp hf with hf | hf
            · exact List.mem_append.mpr (Or.inl (List.mem_append.mpr
                (Or.inl (h6 f hf))))
            · simp at hf
              subst hf
              exact List.mem_append.mpr (Or.inl (List.mem_append.mpr
                (Or.inr (by simp))))
        obtain ⟨p1, p2, p3, p4, p5, p6⟩ := hpush
        split
        · exact finishTask_inv hilt ⟨p1, p2, p3, p4, p5, p6⟩
        · rename_i ast hp
          have hplen : (pushModule st code finalUrl primary).tasks = st.tasks := rfl
          have hsple : i < (spawnAll (findDependencies ast []) finalUrl
              (pushModule st code finalUrl primary)).tasks.length := by
            rw [spawnAll_tasks, hplen, List.length_append]
            omega
          refine finishTask_inv hsple ⟨?_, ?_, ?_, ?_, ?_, ?_⟩
          · rw [spawnAll_activeTasks, spawnAll_tasks]
            simp [p1, hplen]
          · rw [spawnAll_queueEmptySet]
            exact p2
          · rw [spawnAll_fires, spawnAll_tasks, hplen]
            have hne : (st.tasks ++ (findDependencies ast []).map
                (fun d => (⟨d, some finalUrl, TaskPhase.resolving⟩ : RunTask))).isEmpty
                = false :=
              isEmpty_false_of_length (by rw [List.length_append]; omega)
            have hol : st.tasks.isEmpty = false := isEmpty_false_of_length (by omega)
            rw [hne]
            rw [hol] at h3
            simpa using h3
          · have hb : bundleFinals (spawnAll (findDependencies ast []) finalUrl
                (pushModule st code finalUrl primary)) =
                bundleFinals (pushModule st code finalUrl primary) := by
              simp [bundleFinals, spawnAll_bundle]
            rw [spawnAll_parseLog, hb]
            exact p4
          · have hb : bundleFinals (spawnAll (findDependencies ast []) finalUrl
                (pushModule st code finalUrl primary)) =
                bundleFinals (pushModule st code finalUrl primary) := by
              simp [bundleFinals, spawnAll_bundle]
            rw [hb]
            exact p5
          · intro f hf
            have hb : bundleFinals (spawnAll (findDependencies ast []) finalUrl
                (pushModule st code finalUrl primary)) =
                bundleFinals (pushModule st code finalUrl primary) := by
              simp [bundleFinals, spawnAll_bundle]
            rw [hb] at hf
            rw [spawnAll_parsedUrls]
            exact p6 f hf

/-- The state right after run() has scheduled the entry and installed the
completion callback satisfies the invariant. -/
theorem startRun_inv (entry : String) : RunInv (startRun entry) := by
  simp [startRun, spawnTask, initSt, RunInv, bundleFinals]

theorem foldl_step_inv (o : Oracles) (choices : List Nat) :
    ∀ st, RunInv st → RunInv (choices.foldl (stepTask o) st) := by
  induction choices with
  | nil => exact fun st h => h
  | cons c rest ih => exact fun st h => ih _ (stepTask_inv o st c h)

/-- Every state reachable by any schedule of any run satisfies the run
invariant. -/
theorem exec_inv (o : Oracles) (entry : String) (choices : List Nat) :
    RunInv (exec o entry choices) :=
  foldl_step_inv o choices (startRun entry) (startRun_inv entry)

/-! ## Concrete syntax-tree nodes used to exercise the walker -/

/-- A string Literal node. -/
def litNode (s : String) : JVal :=
  .obj [("type", .str "Literal"), ("value", .str s)]

/-- process.env.NODE_ENV as a member-expression chain. -/
def envNode : JVal :=
  .obj [("type", .str "MemberExpression"),
        ("object", .obj [("type", .str "MemberExpression"),
                         ("object", .obj [("type", .str "Identifier"), ("name", .str "process")]),
                         ("property", .obj [("type", .str "Identifier"), ("name", .str "env")])]),
        ("property", .obj [("type", .str "Identifier"), ("name", .str "NODE_ENV")])]

/-- process.env.NODE_ENV op "production". -/
def binTest (op : String) : JVal :=
  .obj [("type", .str "BinaryExpression"), ("operator", .str op),
        ("left", envNode), ("right", litNode "production")]

/-- require("s") as an expression statement. -/
def reqStmt (s : String) : JVal :=
  .obj [("type", .str "ExpressionStatement"),
        ("expression", .obj [("type", .str "CallExpression"),
                             ("callee", .obj [("type", .str "Identifier"), ("name", .str "require")]),
                             ("arguments", .arr [litNode s])])]

/-- The field list of if (process.env.NODE_ENV !== "production")
require("dev-only") — the spec's canonical pruning example. -/
def devGuardFs : List (String × JVal) :=
  [("type", .str "IfStatement"), ("test", binTest "!=="), ("consequent", reqStmt "dev-only")]

/-! ## C1 — environment-conditional pruning -/

/-- C1.  For an if statement whose test is the canonical NODE_ENV
comparison: definitely-true descends only into the consequent (the result
is literally the walk of the consequent, so nothing from the alternate is
ever recorded); definitely-false mirrors for the alternate (respecting the
if (node.alternate) guard); the same two equations hold for a ternary; and
for an indeterminate test (any other comparison, non-NODE_ENV operand or
non-string operand, all of which make evaluateEnvCondition return null)
the walk records the contributions of both the consequent and the
alternate. -/
theorem C1_env_pruning :
    (∀ (fs : List (String × JVal)) (deps : List String),
      typeOf fs = "IfStatement" →
      evaluateEnvCondition (fieldOf fs "test") = some true →
      findDependencies (.obj fs) deps = findDependencies (fieldOf fs "consequent") deps) ∧
    (∀ (fs : List (String × JVal)) (deps : List String),
      typeOf fs = "IfStatement" →
      evaluateEnvCondition (fieldOf fs "test") = some false →
      findDependencies (.obj fs) deps =
        (if truthy (fieldOf fs "alternate") then findDependencies (fieldOf fs "alternate") deps
         else deps)) ∧
    (∀ (fs : List (String × JVal)) (deps : List String),
      typeOf fs = "ConditionalExpression" →
      evaluateEnvCondition (fieldOf fs "test") = some true →
      findDependencies (.obj fs) deps = findDependencies (fieldOf fs "consequent") deps) ∧
    (∀ (fs : List (String × JVal)) (deps : List String),
      typeOf fs = "ConditionalExpression" →
      evaluateEnvCondition (fieldOf fs "test") = some false →
      findDependencies (.obj fs) deps = findDependencies (fieldOf fs "alternate") deps) ∧
    (∀ (fs : List (String × JVal)) (deps : List String) (d : String) (c : JVal),
      (typeOf fs = "IfStatement" ∨ typeOf fs = "ConditionalExpression") →
      evaluateEnvCondition (fieldOf fs "test") = none →
      lookupA fs "consequent" = some c → truthy c = true →
      d ∈ findDependencies c [] → d ∈ findDependencies (.obj fs) deps) ∧
    (∀ (fs : List (String × JVal)) (deps : List String) (d : String) (a : JVal),
      (typeOf fs = "IfStatement" ∨ typeOf fs = "ConditionalExpression") →
      evaluateEnvCondition (fieldOf fs "test") = none →
      lookupA fs "alternate" = some a → truthy a = true →
      d ∈ findDependencies a [] → d ∈ findDependencies (.obj fs) deps) := by
  refine ⟨?_, ?_, ?_, ?_, ?_, ?_⟩
  · intro fs deps h1 h2
    rw [findDependencies_obj, if_pos ⟨h1, h2⟩]
  · intro fs deps h1 h2
    rw [findDependencies_obj, if_neg (by simp [h2]), if_pos ⟨h1, h2⟩]
  · intro fs deps h1 h2
    rw [findDependencies_obj, if_neg (by simp [h1]), if_neg (by simp [h1]), if_pos ⟨h1, h2⟩]
  · intro fs deps h1 h2
    rw [findDependencies_obj, if_neg (by simp [h1]), if_neg (by simp [h1]),
      if_neg (by simp [h2]), if_pos ⟨h1, h2⟩]
  · intro fs deps d c hty hev hc htc hd
    rw [findDependencies_obj, if_neg (by simp [hev]), if_neg (by simp [hev]),
      if_neg (by simp [hev]), if_neg (by simp [hev])]
    exact findDepsKeys_collects (by decide) hc htc hd (extractDeps fs deps)
  · intro fs deps d a hty hev ha hta hd
    rw [findDependencies_obj, if_neg (by simp [hev]), if_neg (by simp [hev]),
      if_neg (by simp [hev]), if_neg (by simp [hev])]
    exact findDepsKeys_collects (by decide) ha hta hd (extractDeps fs deps)

/-- Witness for C1 on the spec's example: the test NODE_ENV !== "production"
evaluates to definitely-false, and the guarded require("dev-only") is
excluded (no alternate exists, so the walk records nothing). -/
theorem C1_env_pruning_witness :
    typeOf devGuardFs = "IfStatement" ∧
    evaluateEnvCondition (fieldOf devGuardFs "test") = some false ∧
    findDependencies (.obj devGuardFs) [] = [] := by
  refine ⟨by decide, by decide, ?_⟩
  have h := C1_env_pruning.2.1 devGuardFs [] (by decide) (by decide)
  rw [h, if_neg (by decide)]

/-! ## C10 — only string-literal specifiers are collected -/

theorem importExportDep_of_none {fs : List (String × JVal)} {deps : List String}
    (h : extractString (fieldOf fs "source") = none) :
    importExportDep fs deps = deps := by
  unfold importExportDep
  split
  · split
    · rw [h]
    · rfl
  · rfl

theorem importExportDep_skip {fs : List (String × JVal)} {deps : List String}
    (h : typeOf fs ∉ importLikeTypes) :
    importExportDep fs deps = deps := by
  unfold importExportDep
  rw [if_neg h]

theorem importExprDep_of_none {fs : List (String × JVal)} {deps : List String}
    (h : extractString (fieldOf fs "source") = none) :
    importExprDep fs deps = deps := by
  unfold importExprDep
  split
  · rw [h]
  · rfl

theorem importExprDep_skip {fs : List (String × JVal)} {deps : List String}
    (h : typeOf fs ≠ "ImportExpression") :
    importExprDep fs deps = deps := by
  unfold importExprDep
  rw [if_neg h]

theorem requireDep_skip {fs : List (String × JVal)} {deps : List String}
    (h : typeOf fs ≠ "CallExpression") :
    requireDep fs deps = deps := by
  unfold requireDep
  rw [if_neg h]

theorem requireDep_of_none {fs : List (String × JVal)} {deps : List String}
    (hargs : ∀ a rest, fieldOf fs "arguments" = JVal.arr (a :: rest) → extractString a = none) :
    requireDep fs deps = deps := by
  unfold requireDep
  split
  · split
    · split
      · rename_i a rest hagg
        rw [hargs a rest hagg]
      · rfl
    · rfl
  · rfl

/-- C10.  A static import or re-export whose source is not a string
literal, a dynamic import whose source is not a string literal, and a call
(require or not) whose first argument is not a string literal — or which
has no arguments at all — contribute no dependency, and the walk
continues into the node's children exactly as for any other node (no
error is possible: the embedded walker is a total function). -/
theorem C10_nonliteral_ignored :
    (∀ (fs : List (String × JVal)) (deps : List String),
      typeOf fs ∈ importLikeTypes →
      extractString (fieldOf fs "source") = none →
      findDependencies (.obj fs) deps = findDepsKeys fs keysToVisit deps) ∧
    (∀ (fs : List (String × JVal)) (deps : List String),
      typeOf fs = "ImportExpression" →
      extractString (fieldOf fs "source") = none →
      findDependencies (.obj fs) deps = findDepsKeys fs keysToVisit deps) ∧
    (∀ (fs : List (String × JVal)) (deps : List String),
      typeOf fs = "CallExpression" →
      isRequireCallee (fieldOf fs "callee") = true →
      (∀ a rest, fieldOf fs "arguments" = JVal.arr (a :: rest) → extractString a = none) →
      findDependencies (.obj fs) deps = findDepsKeys fs keysToVisit deps) := by
  refine ⟨?_, ?_, ?_⟩
  · intro fs deps h1 h2
    have hne : typeOf fs ≠ "IfStatement" ∧ typeOf fs ≠ "ConditionalExpression" ∧
        typeOf fs ≠ "ImportExpression" ∧ typeOf fs ≠ "CallExpression" := by
      simp only [importLikeTypes, List.mem_cons, List.not_mem_nil, or_false] at h1
      rcases h1 with h | h | h <;> simp [h]
    rw [findDependencies_obj, if_neg (by simp [hne.1]), if_neg (by simp [hne.1]),
      if_neg (by simp [hne.2.1]), if_neg (by simp [hne.2.1])]
    unfold extractDeps
    rw [importExportDep_of_none h2, importExprDep_skip hne.2.2.1, requireDep_skip hne.2.2.2]
  · intro fs deps h1 h2
    rw [findDependencies_obj, if_neg (by simp [h1]), if_neg (by simp [h1]),
      if_neg (by simp [h1]), if_neg (by simp [h1])]
    unfold extractDeps
    rw [importExportDep_skip (by rw [h1]; decide), importExprDep_of_none h2,
      requireDep_skip (by rw [h1]; decide)]
  · intro fs deps h1 h2 hargs
    rw [findDependencies_obj, if_neg (by simp [h1]), if_neg (by simp [h1]),
      if_neg (by simp [h1]), if_neg (by simp [h1])]
    unfold extractDeps
    rw [importExportDep_skip (by rw [h1]; decide), importExprDep_skip (by rw [h1]; decide),
      requireDep_of_none hargs]

/-- The field list of require(x) with a non-literal (identifier) argument. -/
def reqNonLiteralFs : List (String × JVal) :=
  [("type", .str "CallExpression"),
   ("callee", .obj [("type", .str "Identifier"), ("name", .str "require")]),
   ("arguments", .arr [.obj [("type", .str "Identifier"), ("name", .str "x")]])]

/-- Witness for C10: require(x) with an identifier argument contributes no
dependency — the full walk of the statement returns the accumulator
unchanged. -/
theorem C10_nonliteral_ignored_witness :
    typeOf reqNonLiteralFs = "CallExpression" ∧
    isRequireCallee (fieldOf reqNonLiteralFs "callee") = true ∧
    findDependencies (.obj reqNonLiteralFs) [] = findDepsKeys reqNonLiteralFs keysToVisit [] ∧
    findDependencies (.obj reqNonLiteralFs) [] = [] := by
  have h := C10_nonliteral_ignored.2.2 reqNonLiteralFs [] (by decide) (by decide)
    (by intro a rest hagg; cases hagg; decide)
  refine ⟨by decide, by decide, h, ?_⟩
  rw [h]
  simp [findDepsKeys_cons, findDepsKeys_nil, reqNonLiteralFs, visitKey, lookupA, truthy,
    keysToVisit, findDependencies, findDepsList, findDepsKeys, extractDeps, importExportDep,
    importExprDep, requireDep, typeOf, fieldOf, isRequireCallee, isStrVal, extractString,
    evaluateEnvCondition, isProcessEnvNodeEnv, getOf, jsOr]

/-! ## C4 — the manifest cache is keyed by specifier, not by package name -/

/-- Oracles for a run in which every external request fails (the manifest
fetch is still attempted and recorded before its failure is ignored). -/
def noOracles : Oracles := ⟨fun _ => none, fun _ => none, fun _ => none⟩

/-- Counterexample to C4 as stated: two bare specifiers naming the same
package p but differing in subpath miss the specifier-keyed cache
independently, so the manifest of p is fetched twice in one run. -/
theorem C4_manifest_refetch_counterexample :
    ((resolvePackageUrl noOracles "p/b"
        (resolvePackageUrl noOracles "p/a" ⟨[], []⟩).2).2).manifestLog =
      ["https://cdn.jsdelivr.net/npm/p/package.json",
       "https://cdn.jsdelivr.net/npm/p/package.json"] := by
  decide

theorem lookupA_append_of_none {α : Type} {l : List (String × α)} {k : String}
    (h : lookupA l k = none) (v : α) : lookupA (l ++ [(k, v)]) k = some v := by
  induction l with
  | nil => simp [lookupA]
  | cons p rest ih =>
    obtain ⟨k', v'⟩ := p
    simp only [lookupA, List.cons_append] at h ⊢
    by_cases hk : k' = k
    · rw [if_pos hk] at h
      cases h
    · rw [if_neg hk] at h ⊢
      exact ih h

/-- C4 amended: resolution results are cached by the full specifier
string, so resolving the same specifier again fetches nothing and changes
nothing — while distinct specifiers of the same package each fetch the
manifest (see the counterexample). -/
theorem C4_cache_per_specifier (o : Oracles) (spec : String) (st : PkgSt) :
    resolvePackageUrl o spec (resolvePackageUrl o spec st).2 =
      resolvePackageUrl o spec st := by
  cases hc : lookupA st.cache spec with
  | some urls => simp [resolvePackageUrl, hc]
  | none =>
    simp only [resolvePackageUrl, hc]
    rw [lookupA_append_of_none hc _]

/-! ## C5 — builtin specifiers -/

/-- Counterexample to C5 as stated for src/cli.js: the specifier http is a
member of the builtin set, yet resolveUrl classifies it as an absolute URL
(the startsWith('http') test runs first) and returns it as a candidate, so
it is treated as a dependency. -/
theorem C5_http_builtin_counterexample :
    "http" ∈ NODE_BUILTINS ∧
    (resolveUrl noOracles "http" none ⟨[], []⟩).1 = some ["http"] := by
  decide

/-- C5 amended: in the acorn variant (src/cli.js) every builtin specifier
whose name does not begin with http — that is, every builtin except http
and https — yields no candidates; in the oxc variant, whose builtin test
runs first, every builtin specifier yields no candidates.  The embedded
resolvers are total functions, so no input makes them fail. -/
theorem C5_builtins_no_candidates :
    (∀ (o : Oracles) (url : String) (base : Option String) (st : PkgSt),
      (url ∈ NODE_BUILTINS ∨ strStartsWith url "node:" = true) →
      strStartsWith url "http" = false →
      (resolveUrl o url base st).1 = none) ∧
    (∀ (o : Oracles) (url : String) (base : Option String) (st : PkgSt),
      (url ∈ NODE_BUILTINS_OXC ∨ strStartsWith url "node:" = true) →
      (resolveUrlOxc o url base st).1 = none) := by
  constructor
  · intro o url base st hb hh
    have hcond : (NODE_BUILTINS.contains url || strStartsWith url "node:") = true := by
      rcases hb with hb | hb
      · simp [hb]
      · simp [hb]
    unfold resolveUrl
    rw [if_neg (by simp [hh]), if_pos hcond]
  · intro o url base st hb
    have hcond : (NODE_BUILTINS_OXC.contains url || strStartsWith url "node:") = true := by
      rcases hb with hb | hb
      · simp [hb]
      · simp [hb]
    unfold resolveUrlOxc
    rw [if_pos hcond]

/-- Witness for C5: fs is a builtin not shadowed by the http test and
yields no candidates in the acorn variant; http itself yields no
candidates in the oxc variant. -/
theorem C5_builtins_no_candidates_witness :
    ("fs" ∈ NODE_BUILTINS ∧ strStartsWith "fs" "http" = false ∧
      (resolveUrl noOracles "fs" none ⟨[], []⟩).1 = none) ∧
    ("http" ∈ NODE_BUILTINS_OXC ∧
      (resolveUrlOxc noOracles "http" none ⟨[], []⟩).1 = none) :=
  ⟨⟨by decide, by decide,
    C5_builtins_no_candidates.1 noOracles "fs" none ⟨[], []⟩ (Or.inl (by decide)) (by decide)⟩,
   ⟨by decide,
    C5_builtins_no_candidates.2 noOracles "http" none ⟨[], []⟩ (Or.inl (by decide))⟩⟩

/-! ## C6 — export-map resolution for bare specifiers with a subpath -/

/-- The manifest of the spec's example, as served for
lodash-es/package.json. -/
def lodashManifest : JVal :=
  .obj [("name", .str "lodash-es"), ("version", .str "4.17.21"),
        ("exports", .obj [("./isEqual", .str "./isEqual.js")])]

def lodashOracles : Oracles :=
  ⟨fun _ => none,
   fun u => if u = "https://cdn.jsdelivr.net/npm/lodash-es/package.json"
            then some lodashManifest else none,
   fun _ => none⟩

/-- A manifest whose export map only carries the "./<subpath>.js" key,
exercising the second lookup of the pair. -/
def altManifest : JVal :=
  .obj [("name", .str "lodash-es"), ("version", .str "4.17.21"),
        ("exports", .obj [("./isEqual.js", .str "./x.js")])]

def altOracles : Oracles :=
  ⟨fun _ => none,
   fun u => if u = "https://cdn.jsdelivr.net/npm/lodash-es/package.json"
            then some altManifest else none,
   fun _ => none⟩

/-- C6.  Candidate computation for a bare specifier with a subpath:
the raw subpath is always appended as the final fallback entry; condition
objects resolve through the fixed priority order (production first, then
node when production is absent — independently of key order, recursing
into nested objects); the export map is consulted at "./<subpath>" and,
when that key is absent, at "./<subpath>.js"; and on the spec's
lodash-es/isEqual example the first candidate ends in isEqual.js with the
raw subpath as the later fallback. -/
theorem C6_exports_resolution :
    (∀ (pkgObj : JVal) (subpath : String), subpath ≠ "" →
      (packageEntries pkgObj subpath).getLast? = some subpath) ∧
    (∀ (fs : List (String × JVal)) (v : JVal), lookupA fs "production" = some v →
      resolveExports (.obj fs) = resolveExports v) ∧
    (∀ (fs : List (String × JVal)) (v : JVal), lookupA fs "production" = none →
      lookupA fs "node" = some v →
      resolveExports (.obj fs) = resolveExports v) ∧
    (resolveExports (.obj [("import", .str "i.js"),
        ("node", .obj [("import", .str "i2.js"), ("default", .str "d.js")])]) =
      some "d.js") ∧
    ((resolvePackageUrl lodashOracles "lodash-es/isEqual" ⟨[], []⟩).1 =
      ["https://cdn.jsdelivr.net/npm/lodash-es@4.17.21/isEqual.js",
       "https://cdn.jsdelivr.net/npm/lodash-es@4.17.21/isEqual"]) ∧
    ((resolvePackageUrl altOracles "lodash-es/isEqual" ⟨[], []⟩).1 =
      ["https://cdn.jsdelivr.net/npm/lodash-es@4.17.21/x.js",
       "https://cdn.jsdelivr.net/npm/lodash-es@4.17.21/isEqual"]) := by
  refine ⟨?_, ?_, ?_, ?_, ?_, ?_⟩
  · intro pkgObj subpath h
    unfold packageEntries
    rw [if_pos h]
    exact List.getLast?_concat _
  · intro fs v h
    exact resolveExports_obj_some (by simp only [conditions, firstCondition, h])
  · intro fs v h0 h1
    exact resolveExports_obj_some (by simp only [conditions, firstCondition, h0, h1])
  · rw [resolveExports_obj_some
      (show firstCondition conditions
          [("import", JVal.str "i.js"),
           ("node", JVal.obj [("import", JVal.str "i2.js"), ("default", JVal.str "d.js")])] =
        some (JVal.obj [("import", JVal.str "i2.js"), ("default", JVal.str "d.js")]) from rfl)]
    rw [resolveExports_obj_some
      (show firstCondition conditions
          [("import", JVal.str "i2.js"), ("default", JVal.str "d.js")] =
        some (JVal.str "d.js") from rfl)]
    rw [resolveExports_str]
  · have hx : resolveExports (.str "./isEqual.js") = some "./isEqual.js" :=
      resolveExports_str _
    simp [resolvePackageUrl, lodashOracles, lodashManifest, packageEntries, lookupA,
      parseBareSpecifier, strSplit, splitChar, strJoin, getOf, fieldOf, truthy, jsOr,
      jsShow, JSDELIVR_BASE, jsSetList, dedupSeen, urlJoin, strStartsWith, strDrop,
      dirOf, originOf, hx]
  · have hx : resolveExports (.str "./x.js") = some "./x.js" :=
      resolveExports_str _
    simp [resolvePackageUrl, altOracles, altManifest, packageEntries, lookupA,
      parseBareSpecifier, strSplit, splitChar, strJoin, getOf, fieldOf, truthy, jsOr,
      jsShow, JSDELIVR_BASE, jsSetList, dedupSeen, urlJoin, strStartsWith, strDrop,
      dirOf, originOf, hx]

/-- Witness for C6: the generic components applied to the lodash-es
manifest — the raw subpath isEqual is the final fallback entry, and a
production condition wins in a two-condition object. -/
theorem C6_exports_resolution_witness :
    (packageEntries lodashManifest "isEqual").getLast? = some "isEqual" ∧
    resolveExports (.obj [("production", .str "p.js"), ("import", .str "i.js")]) =
      resolveExports (.str "p.js") := by
  exact ⟨C6_exports_resolution.1 lodashManifest "isEqual" (by decide),
         C6_exports_resolution.2.1 _ _
           (show lookupA [("production", JVal.str "p.js"), ("import", JVal.str "i.js")]
               "production" = some (JVal.str "p.js") from rfl)⟩

/-! ## C7 — the fetch fallback order and the NotFound condition -/

theorem tryCandidate_none_iff {net : String → Option Resp} {u : String} :
    tryCandidate net u = none ↔
      (net u = none ∧ (srcExt u = true ∨
        (net (u ++ ".js") = none ∧ net (u ++ ".mjs") = none ∧
         net (u ++ "/index.js") = none))) := by
  unfold tryCandidate
  cases hn : net u with
  | some r => simp
  | none =>
    by_cases hs : srcExt u = true
    · simp [hs]
    · rw [Bool.not_eq_true] at hs
      cases h1 : net (u ++ ".js") with
      | some r => simp [hs, h1]
      | none =>
        cases h2 : net (u ++ ".mjs") with
        | some r => simp [hs, h1, h2]
        | none =>
          cases h3 : net (u ++ "/index.js") with
          | some r => simp [hs, h1, h2, h3]
          | none => simp [hs, h1, h2, h3]

theorem tryCandidate_some_spec {net : String → Option Resp} {u : String} {r : Resp}
    (h : tryCandidate net u = some r) :
    net u = some r ∨ (srcExt u = false ∧
      (net (u ++ ".js") = some r ∨ net (u ++ ".mjs") = some r ∨
       net (u ++ "/index.js") = some r)) := by
  unfold tryCandidate at h
  cases hn : net u with
  | some r' =>
    rw [hn] at h
    simp at h
    subst h
    exact Or.inl rfl
  | none =>
    rw [hn] at h
    by_cases hs : srcExt u = true
    · rw [if_pos hs] at h
      cases h
    · rw [Bool.not_eq_true] at hs
      rw [if_neg (by simp [hs])] at h
      cases h1 : net (u ++ ".js") with
      | some r' =>
        rw [h1] at h
        simp at h
        subst h
        exact Or.inr ⟨hs, Or.inl rfl⟩
      | none =>
        rw [h1] at h
        cases h2 : net (u ++ ".mjs") with
        | some r' =>
          rw [h2] at h
          simp at h
          subst h
          exact Or.inr ⟨hs, Or.inr (Or.inl rfl)⟩
        | none =>
          rw [h2] at h
          exact Or.inr ⟨hs, Or.inr (Or.inr h)⟩

theorem fetchFileGo_none_iff {net : String → Option Resp} {urls : List String} :
    fetchFileGo net urls = none ↔ ∀ u ∈ urls, tryCandidate net u = none := by
  induction urls with
  | nil => simp [fetchFileGo]
  | cons u rest ih =>
    unfold fetchFileGo
    cases htc : tryCandidate net u with
    | some r => simp [htc]
    | none => simp [htc, ih]

/-- C7.  The fetcher tries candidates in order: a direct success wins at
once and yields the response's own post-redirect URL; a direct failure on
a URL that already ends in a source-file extension moves straight to the
next candidate (no suffixes); otherwise the .js, .mjs, /index.js suffixes
are tried in that order, the first success winning; the call fails exactly
when every candidate and every applicable suffix has failed; and any
success is the response of some actually tried URL (a candidate, or a
suffixed form of a candidate that does not look like a source file),
yielding that response's body and post-redirect location. -/
theorem C7_fetch_fallback :
    (∀ (net : String → Option Resp) (u : String) (rest : List String) (r : Resp),
      net u = some r → fetchFile net (u :: rest) = .ok (r.text, r.url)) ∧
    (∀ (net : String → Option Resp) (u : String) (rest : List String),
      net u = none → srcExt u = true →
      fetchFileGo net (u :: rest) = fetchFileGo net rest) ∧
    (∀ (net : String → Option Resp) (u : String) (rest : List String) (r : Resp),
      net u = none → srcExt u = false → net (u ++ ".js") = some r →
      fetchFile net (u :: rest) = .ok (r.text, r.url)) ∧
    (∀ (net : String → Option Resp) (u : String) (rest : List String) (r : Resp),
      net u = none → srcExt u = false → net (u ++ ".js") = none →
      net (u ++ ".mjs") = some r →
      fetchFile net (u :: rest) = .ok (r.text, r.url)) ∧
    (∀ (net : String → Option Resp) (u : String) (rest : List String) (r : Resp),
      net u = none → srcExt u = false → net (u ++ ".js") = none →
      net (u ++ ".mjs") = none → net (u ++ "/index.js") = some r →
      fetchFile net (u :: rest) = .ok (r.text, r.url)) ∧
    (∀ (net : String → Option Resp) (urls : List String),
      (∃ e, fetchFile net urls = .error e) ↔
        ∀ u ∈ urls, net u = none ∧ (srcExt u = true ∨
          (net (u ++ ".js") = none ∧ net (u ++ ".mjs") = none ∧
           net (u ++ "/index.js") = none))) ∧
    (∀ (net : String → Option Resp) (urls : List String) (c f : String),
      fetchFile net urls = .ok (c, f) →
      ∃ req r, net req = some r ∧ r.text = c ∧ r.url = f ∧
        (req ∈ urls ∨ ∃ u ∈ urls, srcExt u = false ∧
          (req = u ++ ".js" ∨ req = u ++ ".mjs" ∨ req = u ++ "/index.js"))) := by
  refine ⟨?_, ?_, ?_, ?_, ?_, ?_, ?_⟩
  · intro net u rest r h
    simp [fetchFile, fetchFileGo, tryCandidate, h]
  · intro net u rest h1 h2
    simp [fetchFileGo, tryCandidate, h1, h2]
  · intro net u rest r h1 h2 h3
    simp [fetchFile, fetchFileGo, tryCandidate, h1, h2, h3]
  · intro net u rest r h1 h2 h3 h4
    simp [fetchFile, fetchFileGo, tryCandidate, h1, h2, h3, h4]
  · intro net u rest r h1 h2 h3 h4 h5
    simp [fetchFile, fetchFileGo, tryCandidate, h1, h2, h3, h4, h5]
  · intro net urls
    constructor
    · rintro ⟨e, he⟩
      have hgo : fetchFileGo net urls = none := by
        unfold fetchFile at he
        cases hg : fetchFileGo net urls with
        | some r => rw [hg] at he; cases he
        | none => rfl
      intro u hu
      exact tryCandidate_none_iff.mp (fetchFileGo_none_iff.mp hgo u hu)
    · intro hall
      have hgo : fetchFileGo net urls = none :=
        fetchFileGo_none_iff.mpr fun u hu => tryCandidate_none_iff.mpr (hall u hu)
      exact ⟨"Fetch failed: " ++ urls.headD "undefined", by simp [fetchFile, hgo]⟩
  · intro net urls c f h
    have hgo : ∃ r, fetchFileGo net urls = some r ∧ r.text = c ∧ r.url = f := by
      unfold fetchFile at h
      cases hg : fetchFileGo net urls with
      | some r =>
        rw [hg] at h
        cases h
        exact ⟨r, rfl, rfl, rfl⟩
      | none => rw [hg] at h; cases h
    obtain ⟨r, hr, hc, hf⟩ := hgo
    clear h
    induction urls with
    | nil => cases hr
    | cons u rest ih =>
      unfold fetchFileGo at hr
      cases htc : tryCandidate net u with
      | some r' =>
        rw [htc] at hr
        cases hr
        rcases tryCandidate_some_spec htc with hd | ⟨hs, hsuf⟩
        · exact ⟨u, r, hd, hc, hf, Or.inl (List.mem_cons_self u rest)⟩
        · rcases hsuf with hx | hx | hx
          · exact ⟨u ++ ".js", r, hx, hc, hf,
              Or.inr ⟨u, List.mem_cons_self u rest, hs, Or.inl rfl⟩⟩
          · exact ⟨u ++ ".mjs", r, hx, hc, hf,
              Or.inr ⟨u, List.mem_cons_self u rest, hs, Or.inr (Or.inl rfl)⟩⟩
          · exact ⟨u ++ "/index.js", r, hx, hc, hf,
              Or.inr ⟨u, List.mem_cons_self u rest, hs, Or.inr (Or.inr rfl)⟩⟩
      | none =>
        rw [htc] at hr
        obtain ⟨req, r', hreq, hc', hf', hmem⟩ := ih hr
        refine ⟨req, r', hreq, hc', hf', ?_⟩
        rcases hmem with hmem | ⟨u', hu', hs', hor⟩
        · exact Or.inl (List.mem_cons_of_mem u hmem)
        · exact Or.inr ⟨u', List.mem_cons_of_mem u hu', hs', hor⟩

/-- Witness for C7: a direct failure on a non-source-file candidate is
retried with the .js suffix; with both failing for x and succeeding at
x.js via a redirect, the fetch succeeds with the post-redirect location,
and with everything failing the call reports failure only after the
suffixes are exhausted. -/
theorem C7_fetch_fallback_witness :
    (fetchFile (fun u => if u = "http://h/x.js" then some ⟨"http://h/y.js", "Y"⟩ else none)
      ["http://h/x"] = .ok ("Y", "http://h/y.js")) ∧
    (∃ e, fetchFile (fun _ => none) ["http://h/x"] = Except.error e) := by
  constructor
  · exact C7_fetch_fallback.2.2.1 _ "http://h/x" [] ⟨"http://h/y.js", "Y"⟩
      (by decide) (by decide) (by decide)
  · exact (C7_fetch_fallback.2.2.2.2.2.1 (fun _ => none) ["http://h/x"]).mpr
      (by intro u hu; simp at hu; subst hu; simp)

/-! ## C2 — deduplication per canonical location, and the fetch race -/

/-- A network in which the entry module is served directly and two
distinct sibling candidate URLs both redirect to the same canonical
location dup (res.url differs from the requested URL).  The names are
kept deliberately short; the engine only ever inspects prefixes and
suffixes of them. -/
def raceNet : String → Option Resp := fun u =>
  if u = "httpE" then some ⟨"httpE", "E"⟩
  else if u = "a" then some ⟨"dup", "D"⟩
  else if u = "b" then some ⟨"dup", "D"⟩
  else none

/-- The entry module's tree: require("./a"); require("./b"). -/
def raceAst : JVal :=
  .obj [("type", .str "Program"), ("body", .arr [reqStmt "./a", reqStmt "./b"])]

def raceOracles : Oracles :=
  ⟨raceNet, fun _ => none, fun c => if c = "E" then some raceAst else none⟩

/-- A schedule that lets both sibling tasks pass their visited checks and
fetch before either marks the canonical location: entry resolves, fetches
and finishes (spawning ./a and ./b); then both siblings resolve; then
both fetch; then they finish in turn. -/
def raceSchedule : List Nat := [0, 0, 0, 0, 1, 0, 1, 0, 0]

theorem raceDeps : findDependencies raceAst [] = ["./a", "./b"] := by
  simp [raceAst, reqStmt, litNode, findDependencies, findDepsList, findDepsKeys, visitKey,
    extractDeps, importExportDep, importExprDep, requireDep, insertDep, typeOf, fieldOf,
    lookupA, keysToVisit, importLikeTypes, truthy, isRequireCallee, isStrVal, extractString,
    evaluateEnvCondition, isProcessEnvNodeEnv, getOf, jsOr]

/-! The run's states, step by step, under raceSchedule. -/

def raceS0 : St := ⟨[⟨"httpE", none, .resolving⟩], [], [], ⟨[], []⟩, 1, true, 0, [], [], [], []⟩

def raceS1 : St :=
  ⟨[⟨"httpE", none, .fetching ["httpE"]⟩], [], [], ⟨[], []⟩, 1, true, 0, [], [], [], []⟩

def raceS2 : St :=
  ⟨[⟨"httpE", none, .finishing "httpE" "E" "httpE"⟩], [], [], ⟨[], []⟩, 1, true, 0,
   ["httpE"], [], [], []⟩

def raceS3 : St :=
  ⟨[⟨"./a", some "httpE", .resolving⟩, ⟨"./b", some "httpE", .resolving⟩],
   ["httpE"], [("E", "httpE")], ⟨[], []⟩, 2, true, 0, ["httpE"], ["httpE"], [], []⟩

def raceS4 : St :=
  ⟨[⟨"./a", some "httpE", .fetching ["a"]⟩, ⟨"./b", some "httpE", .resolving⟩],
   ["httpE"], [("E", "httpE")], ⟨[], []⟩, 2, true, 0, ["httpE"], ["httpE"], [], []⟩

def raceS5 : St :=
  ⟨[⟨"./a", some "httpE", .fetching ["a"]⟩, ⟨"./b", some "httpE", .fetching ["b"]⟩],
   ["httpE"], [("E", "httpE")], ⟨[], []⟩, 2, true, 0, ["httpE"], ["httpE"], [], []⟩

def raceS6 : St :=
  ⟨[⟨"./a", some "httpE", .finishing "a" "D" "dup"⟩, ⟨"./b", some "httpE", .fetching ["b"]⟩],
   ["httpE"], [("E", "httpE")], ⟨[], []⟩, 2, true, 0, ["httpE", "dup"], ["httpE"], [], []⟩

def raceS7 : St :=
  ⟨[⟨"./a", some "httpE", .finishing "a" "D" "dup"⟩,
    ⟨"./b", some "httpE", .finishing "b" "D" "dup"⟩],
   ["httpE"], [("E", "httpE")], ⟨[], []⟩, 2, true, 0, ["httpE", "dup", "dup"], ["httpE"], [], []⟩

def raceS8 : St :=
  ⟨[⟨"./b", some "httpE", .finishing "b" "D" "dup"⟩],
   ["httpE", "dup", "a"], [("E", "httpE"), ("D", "dup")], ⟨[], []⟩, 1, true, 0,
   ["httpE", "dup", "dup"], ["httpE", "dup"], [], ["Parse failed for dup"]⟩

def raceS9 : St :=
  ⟨[], ["httpE", "dup", "a"], [("E", "httpE"), ("D", "dup")], ⟨[], []⟩, 0, true, 1,
   ["httpE", "dup", "dup"], ["httpE", "dup"], [], ["Parse failed for dup"]⟩

set_option maxRecDepth 4000 in
/-- Counterexample to C2 as stated: under the schedule above, the
canonical location dup is retrieved twice in one run — both sibling
tasks pass the visited check before either marks it (the documented
check-then-fetch-then-mark window) — even though the synchronous
post-fetch re-check still keeps its content out of the bundle the second
time. -/
theorem C2_duplicate_fetch_counterexample :
    (exec raceOracles "httpE" raceSchedule).fetchLog = ["httpE", "dup", "dup"] ∧
    bundleFinals (exec raceOracles "httpE" raceSchedule) = ["httpE", "dup"] := by
  have e0 : startRun "httpE" = raceS0 := by rfl
  have e1 : stepTask raceOracles raceS0 0 = raceS1 := by rfl
  have e2 : stepTask raceOracles raceS1 0 = raceS2 := by rfl
  have e3 : stepTask raceOracles raceS2 0 = raceS3 := by
    have h1 : stepTask raceOracles raceS2 0 =
        finishTask 0 (spawnAll (findDependencies raceAst []) "httpE"
          (pushModule raceS2 "E" "httpE" "httpE")) := rfl
    rw [h1, raceDeps]
    rfl
  have e4 : stepTask raceOracles raceS3 0 = raceS4 := by rfl
  have e5 : stepTask raceOracles raceS4 1 = raceS5 := by rfl
  have e6 : stepTask raceOracles raceS5 0 = raceS6 := by rfl
  have e7 : stepTask raceOracles raceS6 1 = raceS7 := by rfl
  have e8 : stepTask raceOracles raceS7 0 = raceS8 := by rfl
  have e9 : stepTask raceOracles raceS8 0 = raceS9 := by rfl
  have h : exec raceOracles "httpE" raceSchedule = raceS9 := by
    unfold exec raceSchedule
    simp only [List.foldl_cons, List.foldl_nil, e0, e1, e2, e3, e4, e5, e6, e7, e8, e9]
  rw [h]
  exact ⟨rfl, rfl⟩

/-- C2 amended: in every run, under every schedule and every oracle
behaviour, the bundle contains at most one entry per canonical location
(the post-fetch check, the marking and the push are one synchronous
segment), and the parse attempts are exactly the bundle pushes — so each
canonical location is parsed at most once.  Fetching, by contrast, can
happen twice for one location (see the counterexample). -/
theorem C2_bundle_dedup (o : Oracles) (entry : String) (choices : List Nat) :
    (bundleFinals (exec o entry choices)).Nodup ∧
    (exec o entry choices).parseLog = bundleFinals (exec o entry choices) ∧
    (exec o entry choices).parseLog.Nodup := by
  have h := exec_inv o entry choices
  refine ⟨h.2.2.2.2.1, h.2.2.2.1, ?_⟩
  rw [h.2.2.2.1]
  exact h.2.2.2.2.1

/-! ## C3 — the live-task counter and the completion signal -/

/-- C3.  In every reachable state of every run: the live-task counter
equals the number of in-flight tasks (it is incremented when a task is
scheduled and decremented exactly when the task's finally block runs,
whatever the outcome), and the completion callback has fired exactly once
if the task graph has drained and not at all otherwise — so completion
fires exactly once per completed run, whether the entry schedules zero or
many further tasks. -/
theorem C3_completion_once (o : Oracles) (entry : String) (choices : List Nat) :
    (exec o entry choices).activeTasks = (exec o entry choices).tasks.length ∧
    (exec o entry choices).fires =
      (if (exec o entry choices).tasks.isEmpty then 1 else 0) := by
  have h := exec_inv o entry choices
  exact ⟨h.1, h.2.2.1⟩

/-! ## C8 — parse failure still bundles the raw text, contributes no edges -/

/-- C8.  When a finishing task's text cannot be parsed (both acorn
attempts threw, modelled by the parse oracle returning none), the raw
text is still pushed onto the bundle (paired with its canonical
location), one warning line is emitted, the visited marks are still made,
and the task simply ends: the task list loses exactly that task, so no
further task is scheduled from the module — zero discovered
dependencies. -/
theorem C8_parse_failure_bundled (o : Oracles) (st : St) (i : Nat) (t : RunTask)
    (primary code finalUrl : String)
    (ht : st.tasks[i]? = some t)
    (hp : t.phase = .finishing primary code finalUrl)
    (hnew : finalUrl ∉ st.parsedUrls)
    (hparse : o.parse code = none) :
    (stepTask o st i).bundle = st.bundle ++ [(code, finalUrl)] ∧
    (stepTask o st i).tasks = st.tasks.eraseIdx i ∧
    (stepTask o st i).warnLog = st.warnLog ++ ["Parse failed for " ++ finalUrl] ∧
    (stepTask o st i).parsedUrls = st.parsedUrls ++ [finalUrl] ++
      (if primary = finalUrl then [] else [primary]) := by
  unfold stepTask
  split
  · rename_i hnone
    rw [ht] at hnone
    cases hnone
  · rename_i t' ht'
    rw [ht] at ht'
    injection ht' with ht'
    subst ht'
    split
    · rename_i heq
      rw [hp] at heq
      cases heq
    · rename_i targets heq
      rw [hp] at heq
      cases heq
    · rename_i p c f heq
      rw [hp] at heq
      injection heq with h1 h2 h3
      subst h1
      subst h2
      subst h3
      rw [if_neg hnew]
      split
      · exact ⟨rfl, rfl, rfl, rfl⟩
      · rename_i ast heq2
        rw [hparse] at heq2
        cases heq2

/-- A one-task state about to finish a module whose text c does not
parse. -/
def parseFailSt : St :=
  ⟨[⟨"u", none, .finishing "f" "c" "f"⟩], [], [], ⟨[], []⟩, 1, true, 0, [], [], [], []⟩

/-- Witness for C8 at a concrete state: the unparseable text is bundled
raw and the task ends without scheduling anything. -/
theorem C8_parse_failure_bundled_witness :
    (stepTask noOracles parseFailSt 0).bundle = [("c", "f")] ∧
    (stepTask noOracles parseFailSt 0).tasks = [] ∧
    (stepTask noOracles parseFailSt 0).warnLog = ["Parse failed for f"] := by
  have h := C8_parse_failure_bundled noOracles parseFailSt 0
    ⟨"u", none, .finishing "f" "c" "f"⟩ "f" "c" "f" rfl rfl (by simp [parseFailSt]) rfl
  refine ⟨?_, ?_, ?_⟩
  · rw [h.1]; rfl
  · rw [h.2.1]; rfl
  · rw [h.2.2.1]; rfl

/-! ## C9 — error containment and the exit/report rule -/

/-- C9.  The tail of run() exits nonzero exactly on an empty bundle, and
prints the final report exactly when at least one module was bundled; a
per-module fetch failure is handled entirely inside its own task's
atomic step — it appends exactly one diagnostic line, leaves the bundle,
the visited set and the fetch log untouched, removes only the failed
task (so sibling tasks are unaffected), and therefore cannot influence
the exit status, which depends only on the final bundle. -/
theorem C9_error_containment :
    (∀ st : St, (runReport st).1 ≠ 0 ↔ st.bundle = []) ∧
    (∀ st : St, (runReport st).2 = true ↔ st.bundle ≠ []) ∧
    (∀ (o : Oracles) (st : St) (i : Nat) (t : RunTask) (targets : List String) (e : String),
      st.tasks[i]? = some t →
      t.phase = .fetching targets →
      targets.headD "" ∉ st.parsedUrls →
      fetchFile o.net targets = .error e →
      (stepTask o st i).bundle = st.bundle ∧
      (stepTask o st i).parsedUrls = st.parsedUrls ∧
      (stepTask o st i).fetchLog = st.fetchLog ∧
      (stepTask o st i).errLog = st.errLog ++ ["Failed to fetch: " ++ t.url] ∧
      (stepTask o st i).tasks = st.tasks.eraseIdx i) := by
  refine ⟨?_, ?_, ?_⟩
  · intro st
    unfold runReport
    cases hb : st.bundle with
    | nil => simp
    | cons x xs => simp
  · intro st
    unfold runReport
    cases hb : st.bundle with
    | nil => simp
    | cons x xs => simp
  · intro o st i t targets e ht hp hmem hfail
    unfold stepTask
    split
    · rename_i hnone
      rw [ht] at hnone
      cases hnone
    · rename_i t' ht'
      rw [ht] at ht'
      injection ht' with ht'
      subst ht'
      split
      · rename_i heq
        rw [hp] at heq
        cases heq
      · rename_i targets' heq
        rw [hp] at heq
        injection heq with h1
        subst h1
        rw [if_neg hmem]
        split
        · exact ⟨rfl, rfl, rfl, rfl, rfl⟩
        · rename_i cf heq2
          rw [hfail] at heq2
          cases heq2
      · rename_i p c f heq
        rw [hp] at heq
        cases heq

/-- A two-task state whose first task is about to fail its fetch (the
no-oracle network refuses everything). -/
def fetchFailSt : St :=
  ⟨[⟨"u", none, .fetching ["x"]⟩, ⟨"v", none, .resolving⟩],
   [], [], ⟨[], []⟩, 2, true, 0, [], [], [], []⟩

/-- Witness for C9 at a concrete state: the failed fetch logs one line,
bundles nothing, and leaves the sibling task in place. -/
theorem C9_error_containment_witness :
    ((runReport fetchFailSt).1 ≠ 0 ↔ fetchFailSt.bundle = []) ∧
    ((stepTask noOracles fetchFailSt 0).bundle = [] ∧
     (stepTask noOracles fetchFailSt 0).errLog = ["Failed to fetch: u"] ∧
     (stepTask noOracles fetchFailSt 0).tasks = [⟨"v", none, .resolving⟩]) := by
  have h := C9_error_containment.2.2 noOracles fetchFailSt 0
    ⟨"u", none, .fetching ["x"]⟩ ["x"] ("Fetch failed: " ++ "x") rfl rfl
    (by simp [fetchFailSt]) (by rfl)
  refine ⟨C9_error_containment.1 fetchFailSt, ?_, ?_, ?_⟩
  · rw [h.1]; rfl
  · rw [h.2.2.2.1]; rfl
  · rw [h.2.2.2.2]; rfl
